import Mathlib

/-!
Verification development for the goSQL `db.DmlBase` association-path
resolution and criteria-composition core (file `SimpleDBA.go`, packages
`dbx` and `db`).

The Go code is embedded shallowly:

* the mutable `Criteria`/`Token` expression tree becomes an inductive
  type; each node carries a numeric identity that models its heap
  pointer, and every operation that allocates new nodes (cloning,
  building combinators) threads an allocation counter, so that
  "same pointer" is expressible as "same identity";
* mutating methods become functions returning the updated value, and
  the session object `DmlBase` becomes an explicit state record that is
  threaded through the operations;
* `panic` becomes `Except.error`.

PathElements are shared by pointer in the source (between the join
list, the cache of traversed paths and the caller's slice); the
embedding passes the updated elements along explicitly and writes them
back where the source relies on that sharing.
-/

namespace GoSql

/-- Values carried by expression-tree nodes and parameter maps
(`interface{}` payloads in the source).  `vsub` carries the parameter
map of a subquery (`*Query` value of a `TOKEN_SUBQUERY` token). -/
inductive CVal : Type where
  | vnone : CVal
  | vint (n : Int) : CVal
  | vstr (s : String) : CVal
  | vsub (params : List (String × CVal)) : CVal
deriving Repr

mutual

/-- The `Criteria`/`Token` expression node of the `db` package: an
operator tag, a table alias, a value payload and child members.  The
`id` field models the node's heap pointer: operations that allocate
fresh nodes assign fresh identities from a counter. -/
inductive Criteria : Type where
  | node (id : Nat) (op : String) (talias : String) (value : CVal) (members : CList)

/-- The member list of a `Criteria` node (`[]Tokener` in the source). -/
inductive CList : Type where
  | nil : CList
  | cons (head : Criteria) (tail : CList) : CList

end

def TOKEN_RAW : String := "RAW"

def TOKEN_PARAM : String := "PARAM"

def TOKEN_SUBQUERY : String := "SUBQUERY"

def TOKEN_AND : String := "AND"

def TOKEN_EQ : String := "EQ"

def Criteria.cid : Criteria → Nat
  | .node i _ _ _ _ => i

def Criteria.op : Criteria → String
  | .node _ o _ _ _ => o

def Criteria.talias : Criteria → String
  | .node _ _ a _ _ => a

def Criteria.value : Criteria → CVal
  | .node _ _ _ v _ => v

def Criteria.members : Criteria → CList
  | .node _ _ _ _ ms => ms

def CList.toList : CList → List Criteria
  | .nil => []
  | .cons c cs => c :: cs.toList

def CList.ofList : List Criteria → CList
  | [] => .nil
  | c :: cs => .cons c (CList.ofList cs)

def CList.length : CList → Nat
  | .nil => 0
  | .cons _ cs => cs.length + 1

/-- Decimal digit rendering with explicit fuel (the fuel makes the
recursion structural, so concrete values reduce inside the kernel). -/
def natStrAux : Nat → Nat → String
  | 0, _ => ""
  | fuel + 1, n =>
    if n < 10 then String.singleton (Nat.digitChar n)
    else natStrAux fuel (n / 10) ++ String.singleton (Nat.digitChar (n % 10))

/-- Decimal rendering of a natural number, the embedding of Go's
`strconv.Itoa` used to generate parameter names and aliases. -/
def natStr (n : Nat) : String := natStrAux (n + 1) n



mutual

/-- Modelled from the spec: the `Criteria.SetTableAlias` alias rewrite of
the `db` package (not part of the reviewed source file).  It stamps the
alias onto a node whose alias is still unassigned and recurses into its
members; an alias that was already forced on a node is preserved, which
is what lets the composer force the origin-side alias of an association
discriminator before the ON-criteria rewrite runs (spec 4.3). -/
def Criteria.setTableAlias (a : String) : Criteria → Criteria
  | .node i op al v ms =>
    if al = "" then .node i op a v (CList.setTableAliasL a ms) else .node i op al v ms

/-- Member-list version of `Criteria.setTableAlias`. -/
def CList.setTableAliasL (a : String) : CList → CList
  | .nil => .nil
  | .cons c cs => .cons (c.setTableAlias a) (cs.setTableAliasL a)

end

mutual

/-- Modelled from the spec: the deep `Clone` of the expression tree
(spec 2, 4.4: criteria support deep cloning; the clone is a fresh
session-owned copy).  Fresh node identities are drawn from the counter,
modelling the fresh heap pointers of the copied nodes. -/
def Criteria.cloneFrom (ctr : Nat) : Criteria → Criteria × Nat
  | .node _ op al v ms =>
    let r := CList.cloneFromL (ctr + 1) ms
    (.node ctr op al v r.1, r.2)

/-- Member-list version of `Criteria.cloneFrom`. -/
def CList.cloneFromL (ctr : Nat) : CList → CList × Nat
  | .nil => (.nil, ctr)
  | .cons c cs =>
    let r1 := Criteria.cloneFrom ctr c
    let r2 := CList.cloneFromL r1.2 cs
    (.cons r1.1 r2.1, r2.2)

end

mutual

/-- All node identities occurring in a criteria tree. -/
def Criteria.ids : Criteria → List Nat
  | .node i _ _ _ ms => i :: CList.idsL ms

/-- Member-list version of `Criteria.ids`. -/
def CList.idsL : CList → List Nat
  | .nil => []
  | .cons c cs => Criteria.ids c ++ CList.idsL cs

end

mutual

/-- Number of raw-literal (`TOKEN_RAW`) nodes in a criteria tree. -/
def Criteria.rawCount : Criteria → Nat
  | .node _ op _ _ ms => (if op = TOKEN_RAW then 1 else 0) + CList.rawCountL ms

/-- Member-list version of `Criteria.rawCount`. -/
def CList.rawCountL : CList → Nat
  | .nil => 0
  | .cons c cs => Criteria.rawCount c + CList.rawCountL cs

end

mutual

/-- Number of bound-parameter (`TOKEN_PARAM`) nodes in a criteria tree. -/
def Criteria.paramCount : Criteria → Nat
  | .node _ op _ _ ms => (if op = TOKEN_PARAM then 1 else 0) + CList.paramCountL ms

/-- Member-list version of `Criteria.paramCount`. -/
def CList.paramCountL : CList → Nat
  | .nil => 0
  | .cons c cs => Criteria.paramCount c + CList.paramCountL cs

end

mutual

/-- The values of the raw-literal nodes of a tree, in visiting order. -/
def Criteria.rawVals : Criteria → List CVal
  | .node _ op _ v ms => (if op = TOKEN_RAW then [v] else []) ++ CList.rawValsL ms

/-- Member-list version of `Criteria.rawVals`. -/
def CList.rawValsL : CList → List CVal
  | .nil => []
  | .cons c cs => Criteria.rawVals c ++ CList.rawValsL cs

end

mutual

/-- Well-formed expression trees as the `db` package API constructs
them: raw-literal tokens are leaves (`Raw` builds a member-less token)
and no subquery token occurs inside the tree being rewritten. -/
def Criteria.wf : Criteria → Bool
  | .node _ op _ _ ms =>
    op ≠ TOKEN_SUBQUERY
      && (if op = TOKEN_RAW then (match ms with | CList.nil => true | _ => false) else true)
      && CList.wfL ms

/-- Member-list version of `Criteria.wf`. -/
def CList.wfL : CList → Bool
  | .nil => true
  | .cons c cs => Criteria.wf c && CList.wfL cs

end

/-- Go map assignment `m[k] = v`: replace the binding if the key is
present, otherwise add a new binding. -/
def setParam (ps : List (String × CVal)) (k : String) (v : CVal) : List (String × CVal) :=
  if (ps.find? (fun p => p.fst == k)).isSome then
    ps.map (fun p => if p.fst == k then (k, v) else p)
  else ps ++ [(k, v)]

/-- Go map lookup `m[k]`. -/
def lookupP (ps : List (String × CVal)) (k : String) : Option CVal :=
  (ps.find? (fun p => p.fst == k)).map (·.snd)

/-- A table of the schema: identity plus its table-level discriminator
criterias (`Table.GetCriterias`). -/
structure Table where
  tid : Nat
  criterias : List Criteria

/-- One end of a column-pairing relation; `talias` is the table alias
stamped onto it by `prepareAssociation`. -/
structure ColRef where
  name : String
  talias : String

/-- A column-pairing relation of an association (`GetRelations`). -/
structure Relation where
  relFrom : ColRef
  relTo : ColRef

/-- An association-scoped discriminator declaration.  `Criteria()` on it
builds a fresh criteria node (modelled below). -/
structure Discriminator where
  column : String
  dvalue : CVal

/-- The alias-carrying part of an association.  `aid` models the
object's pointer identity (the alias bag keys associations by
identity); schema-level associations keep their original identity,
session clones get fresh ones. -/
structure AssocCore where
  aid : Nat
  tableFrom : Table
  tableTo : Table
  relations : List Relation
  aliasFrom : String
  aliasTo : String

/-- An `Association`.  A many-to-many association carries its two
junction halves (`FromM2M`, `ToM2M`); `IsMany2Many` is `m2m.isSome`.
`discTable` is `GetDiscriminatorTable`, meaningful when
`discriminators` is nonempty. -/
structure Assoc where
  core : AssocCore
  m2m : Option (AssocCore × AssocCore)
  discriminators : List Discriminator
  discTable : Table

/-- Modelled from the spec: `Association.Clone` (not in the reviewed
source) produces the session-scoped copy that will carry alias state
(spec 3, 4.2 step 3); the copy and, for a many-to-many association,
its two junction halves are fresh objects, so they receive fresh
identities from the session counter. -/
def Assoc.cloneA (a : Assoc) (ctr : Nat) : Assoc × Nat :=
  match a.m2m with
  | none => ({ a with core := { a.core with aid := ctr } }, ctr + 1)
  | some (f, t) =>
    ({ a with core := { a.core with aid := ctr },
              m2m := some ({ f with aid := ctr + 1 }, { t with aid := ctr + 2 }) },
     ctr + 3)

/-- One step of a requested traversal (`PathElement`). -/
structure PathElement where
  base : Assoc
  derived : Option Assoc
  inner : Bool
  criteria : Option Criteria
  columns : Option (List Criteria)
  preferredAlias : String

/-- A resolved join: an ordered sequence of path elements plus the
fetch flag (`NewJoin(associations, fetch)`). -/
structure Join where
  elements : List PathElement
  fetch : Bool

/-- Per-slot criteria and column restrictions (`PathCriteria`). -/
structure PathCriteria where
  criterias : List Criteria
  columns : Option (List Criteria)

/-- Modelled from the spec: the alias allocator (`AliasBag`, spec 4.1).
It maps association identity to an assigned alias; `getAlias` is
idempotent and generates `pfx ++ counter` aliases for unseen
associations, `setAlias` registers a caller-preferred alias. -/
structure AliasBag where
  pfx : String
  counter : Nat
  bag : List (Nat × String)

def AliasBag.lookupA (b : AliasBag) (k : Nat) : Option String :=
  (b.bag.find? (fun p => p.fst == k)).map (·.snd)

def AliasBag.getAlias (b : AliasBag) (k : Nat) : String × AliasBag :=
  match b.lookupA k with
  | some a => (a, b)
  | none =>
    let a := b.pfx ++ natStr (b.counter + 1)
    (a, { b with counter := b.counter + 1, bag := b.bag ++ [(k, a)] })

def AliasBag.setAlias (b : AliasBag) (k : Nat) (a : String) : AliasBag :=
  if (b.bag.find? (fun p => p.fst == k)).isSome then
    { b with bag := b.bag.map (fun p => if p.fst == k then (k, a) else p) }
  else { b with bag := b.bag ++ [(k, a)] }

def JOIN_PFX : String := "j"

def TABLE_PFX : String := "t"

/-- The session state of one query-building `DmlBase` instance.  `ctr`
is the allocation counter that models heap-pointer freshness for
session-created objects (association clones and criteria nodes). -/
structure DmlSt where
  tableAlias : String
  joinBag : AliasBag
  parameters : List (String × CVal)
  rawIndex : Nat
  criteria : Option Criteria
  discriminatorCriterias : List Criteria
  cachedAssociation : List (List PathElement)
  joins : List Join
  lastFkAlias : String
  lastJoin : Option Join
  ctr : Nat

/-- `DmlBase.Super` / `alias`: a fresh session on a table, with the
alias bag seeded `alias ++ "_" ++ JOIN_PREFIX` and the table's
discriminators installed.  `ctr0` seeds the allocation counter above
every schema-object identity. -/
def DmlSt.init (table : Table) (a : String) (ctr0 : Nat) : DmlSt :=
  { tableAlias := a
    joinBag := { pfx := a ++ "_" ++ JOIN_PFX, counter := 0, bag := [] }
    parameters := []
    rawIndex := 0
    criteria := none
    discriminatorCriterias := table.criterias
    cachedAssociation := []
    joins := []
    lastFkAlias := ""
    lastJoin := none
    ctr := ctr0 }

/-- The generated name of the parameter replacing the `rawIndex`-th raw
literal: table alias + "_R" + counter (`replaceRaw`). -/
def genName (ta : String) (j : Nat) : String := ta ++ "_R" ++ natStr j

mutual

/-- `DmlBase.replaceRaw` (SimpleDBA.go 912-943): rewrite raw literals
into bound parameters registered in the session's parameter map, copy a
subquery's parameters up into the session, and otherwise recurse into
the members.  (On a subquery token whose value is not a `*Query` the
source would panic in the type assertion; such tokens do not occur.) -/
def DmlSt.replaceRaw (s : DmlSt) : Criteria → DmlSt × Criteria
  | .node i op al v ms =>
    if op = TOKEN_RAW then
      let ri := s.rawIndex + 1
      let pname := genName s.tableAlias ri
      ({ s with rawIndex := ri, parameters := setParam s.parameters pname v },
       .node i TOKEN_PARAM al (CVal.vstr pname) ms)
    else if op = TOKEN_SUBQUERY then
      match v with
      | CVal.vsub ps =>
        ({ s with parameters := ps.foldl (fun acc kv => setParam acc kv.1 kv.2) s.parameters },
         .node i op al v ms)
      | _ => (s, .node i op al v ms)
    else
      let r := DmlSt.replaceRawL s ms
      (r.1, .node i op al v r.2)

/-- Member-list traversal of `replaceRaw` (the `for _, t := range members`
loop; `nil` members are skipped by the source and are not representable
here). -/
def DmlSt.replaceRawL (s : DmlSt) : CList → DmlSt × CList
  | .nil => (s, .nil)
  | .cons c cs =>
    let r1 := DmlSt.replaceRaw s c
    let r2 := DmlSt.replaceRawL r1.1 cs
    (r2.1, .cons r1.2 r2.2)

end

/-- The identity under which an association's destination end is keyed
in the alias bag: the `ToM2M` half for a many-to-many association, the
association itself otherwise (see `addJoin`'s `lastFk` tracking and
`applyOn`/`applyInclude`). -/
def Assoc.hopKey (a : Assoc) : Nat :=
  match a.m2m with
  | some (_, t) => t.aid
  | none => a.core.aid

/-- `Tokener.SetTableAlias` on a relation endpoint (guarded like
`Criteria.setTableAlias`; the endpoints of a fresh clone carry no
alias, so the guard never bites in `prepareAssociation`). -/
def setColAlias (c : ColRef) (a : String) : ColRef :=
  if c.talias = "" then { c with talias := a } else c

/-- `DmlBase.prepareAssociation` (SimpleDBA.go 786-793): stamp the two
endpoint aliases onto the association clone and onto every one of its
column-pairing relations. -/
def prepareAssociation (aliasFrom aliasTo : String) (currentFk : AssocCore) : AssocCore :=
  { currentFk with
    aliasFrom := aliasFrom
    aliasTo := aliasTo
    relations := currentFk.relations.map (fun r =>
      { relFrom := setColAlias r.relFrom aliasFrom, relTo := setColAlias r.relTo aliasTo }) }

/-- The body of `addJoin`'s non-cached branch (SimpleDBA.go 703-755):
clone the schema association, then either resolve a many-to-many
association as two prepared hops through the junction aliases, or
resolve a plain association as a single prepared hop, honouring a
caller-preferred alias on the destination end. -/
def resolveStep (fkAlias : String) (bag : AliasBag) (ctr : Nat) (pe : PathElement) :
    Assoc × AliasBag × Nat :=
  let r0 := pe.base.cloneA ctr
  let cl := r0.1
  match cl.m2m with
  | some (fromFk, toFk) =>
    let r1 := bag.getAlias fromFk.aid
    let fromFk' := prepareAssociation fkAlias r1.1 fromFk
    let r2 :=
      if pe.preferredAlias = "" then r1.2.getAlias toFk.aid
      else (pe.preferredAlias, r1.2.setAlias toFk.aid pe.preferredAlias)
    let r3 := r2.2.getAlias fromFk.aid
    let toFk' := prepareAssociation r3.1 r2.1 toFk
    ({ cl with m2m := some (fromFk', toFk') }, r3.2, r0.2)
  | none =>
    let r1 :=
      if pe.preferredAlias = "" then bag.getAlias cl.core.aid
      else (pe.preferredAlias, bag.setAlias cl.core.aid pe.preferredAlias)
    ({ cl with core := prepareAssociation fkAlias r1.1 cl.core }, r1.2, r0.2)

/-- Length of the common prefix of two paths, comparing pairwise by
schema-level association identity. -/
def commonLen : List PathElement → List PathElement → Nat
  | a :: as', b :: bs =>
    if a.base.core.aid = b.base.core.aid then commonLen as' bs + 1 else 0
  | _, _ => 0

/-- One candidate step of the longest-common-prefix search: replace the
running best by this entry's matched prefix when it matches strictly
deeper (first matching entry wins ties). -/
def DCPStep (req best e : List PathElement) : List PathElement :=
  let l := commonLen e req
  if l > best.length then e.take l else best

/-- Modelled from the spec: `DeepestCommonPath` (db package, outside the
reviewed file; spec 4.2 step 1): the longest-common-prefix search over
all cached paths, pairwise by schema association identity, first
matching entry winning ties. -/
def DeepestCommonPath (cache : List (List PathElement)) (req : List PathElement) :
    List PathElement :=
  cache.foldl (DCPStep req) []

/-- The loop accumulator of `addJoin`: the alias bag, the allocation
counter, the identity of the previous hop's destination (`lastFk`), the
element counter `f`, the running `matches` flag and the resolved
elements (`local`). -/
structure JAcc where
  bag : AliasBag
  ctr : Nat
  lastFk : Option Nat
  f : Nat
  matched : Bool
  localEls : List PathElement

/-- The cache probe of one `addJoin` iteration (SimpleDBA.go 692-701):
while `matches` holds and the common prefix is not exhausted, a
matching element yields the cached derived association
(`lastCachedFk`); any mismatch clears `matches`. -/
def probeStep (pe : PathElement) (common : List PathElement) (matched : Bool) :
    Option Assoc × Bool × List PathElement :=
  if matched then
    match common with
    | c :: cs =>
      if c.base.core.aid = pe.base.core.aid then (c.derived, true, cs)
      else (none, false, cs)
    | [] => (none, false, [])
  else (none, false, common)

/-- The element the loop stores for a cache-hit step: the requested
element carrying the cached element's derived association verbatim
(SimpleDBA.go 695-698). -/
def reuseEl (pe c : PathElement) : PathElement :=
  { pe with derived := c.derived }

/-- The accumulator after one cache-miss step (SimpleDBA.go 703-765):
the origin alias is the base table's for the first element and the
previous hop's destination alias otherwise, the element is freshly
resolved by `resolveStep`, and `lastFk` moves to the new hop. -/
def freshAcc (ta : String) (pe : PathElement) (acc : JAcc) (m2 : Bool) : JAcc :=
  let rF : String × AliasBag :=
    if acc.f = 0 then (ta, acc.bag)
    else
      match acc.lastFk with
      | some k => acc.bag.getAlias k
      | none => (ta, acc.bag)
  let rR := resolveStep rF.1 rF.2 acc.ctr pe
  { bag := rR.2.1, ctr := rR.2.2, lastFk := some rR.1.hopKey, f := acc.f + 1,
    matched := m2, localEls := acc.localEls ++ [{ pe with derived := some rR.1 }] }

/-- The element loop of `DmlBase.addJoin` (SimpleDBA.go 690-770),
consuming the requested elements in lockstep with the common prefix
while `matches` holds: a cached element's derived association is reused
verbatim, anything else is freshly resolved by `resolveStep`. -/
def addJoinLoop (ta : String) : List PathElement → List PathElement → JAcc → JAcc
  | [], _, acc => acc
  | pe :: rest, common, acc =>
    match probeStep pe common acc.matched with
    | (some cached, m2, commonRest) =>
      addJoinLoop ta rest commonRest
        { acc with lastFk := some cached.hopKey, f := acc.f + 1, matched := m2,
                   localEls := acc.localEls ++ [{ pe with derived := some cached }] }
    | (none, m2, commonRest) =>
      addJoinLoop ta rest commonRest (freshAcc ta pe acc m2)

/-- `DmlBase.addJoin` (SimpleDBA.go 679-784).  Returns the resolved
elements (`local`) and the final `matches` flag in addition to the
state; the source shares the `PathElement` pointers between the caller,
the cache and the new `Join`, and `joinTo` uses the extra outputs to
write the later criteria updates back to those places. -/
def DmlSt.addJoin (s : DmlSt) (commonIn : Option (List PathElement))
    (associations : List PathElement) (fetch : Bool) :
    DmlSt × List PathElement × Bool :=
  let common :=
    match commonIn with
    | some c => c
    | none => DeepestCommonPath s.cachedAssociation associations
  let acc := addJoinLoop s.tableAlias associations common
    { bag := s.joinBag, ctr := s.ctr, lastFk := none, f := 0, matched := true, localEls := [] }
  let cached' :=
    if acc.matched then s.cachedAssociation else s.cachedAssociation ++ [acc.localEls]
  let rL : String × AliasBag :=
    match acc.lastFk with
    | some k => acc.bag.getAlias k
    | none => (s.lastFkAlias, acc.bag)
  let j : Join := { elements := acc.localEls, fetch := fetch }
  ({ s with joinBag := rL.2, ctr := acc.ctr, cachedAssociation := cached',
            lastFkAlias := rL.1, lastJoin := some j, joins := s.joins ++ [j] },
   acc.localEls, acc.matched)

/-- Modelled from the spec: `Discriminator.Criteria()` (db package,
outside the reviewed file) builds a fresh criteria node for the
discriminator condition, with no table alias assigned yet. -/
def Discriminator.criteriaOf (d : Discriminator) (ctr : Nat) : Criteria × Nat :=
  (.node ctr TOKEN_EQ "" d.dvalue CList.nil, ctr + 1)

/-- `for _, v := range discriminators { ... append(pc.Criterias, v.Criteria()) }`. -/
def buildDiscCrits : List Discriminator → Nat → List Criteria × Nat
  | [], ctr => ([], ctr)
  | d :: ds, ctr =>
    let r1 := d.criteriaOf ctr
    let r2 := buildDiscCrits ds r1.2
    (r1.1 :: r2.1, r2.2)

/-- The origin-side branch: each discriminator criteria gets the alias
of the *previous* element forced onto it before being appended. -/
def buildDiscCritsForced : List Discriminator → String → Nat → List Criteria × Nat
  | [], _, ctr => ([], ctr)
  | d :: ds, lfa, ctr =>
    let r1 := d.criteriaOf ctr
    let r2 := buildDiscCritsForced ds lfa r1.2
    (r1.1.setTableAlias lfa :: r2.1, r2.2)

/-- The slot value the first pass of `buildPathCriterias`
(SimpleDBA.go 617-645) computes for one path element: the
caller-attached criteria seed, then the destination table's
discriminator criterias, then the column inclusions (the `pc` built at
SimpleDBA.go 620-644).  The pass increments the slot index before
every write, so slot 0 is never touched. -/
def firstPassSlot (pe : PathElement) : Option PathCriteria :=
  let pc0 : Option PathCriteria :=
    match pe.criteria with
    | some c => some { criterias := [c], columns := none }
    | none => none
  let tcs := pe.base.core.tableTo.criterias
  let pc1 : Option PathCriteria :=
    if !tcs.isEmpty then
      some { criterias := (match pc0 with | some pc => pc.criterias | none => []) ++ tcs,
             columns := none }
    else pc0
  match pe.columns with
  | some cols =>
    some { criterias := (match pc1 with | some pc => pc.criterias | none => []),
           columns := some cols }
  | none => pc1

def bpc1 : List PathElement → Nat → List (Option PathCriteria) → List (Option PathCriteria)
  | [], _, slots => slots
  | pe :: rest, index, slots =>
    let index' := index + 1
    bpc1 rest index' (slots.set index' (firstPassSlot pe))

/-- The slot update one element contributes in the second pass of
`buildPathCriterias` (SimpleDBA.go 651-672): no change without
association discriminators; otherwise the discriminator criterias are
appended to the element's slot, alias-forced to the running
`lastFkAlias` when the discriminator table is not the destination
table. -/
def secondPassUpd (pe : PathElement) (lfa : String) (ctr : Nat)
    (slots : List (Option PathCriteria)) (index' : Nat) :
    List (Option PathCriteria) × Nat :=
  if !pe.base.discriminators.isEmpty then
    let pc : PathCriteria :=
      match slots.get? index' with
      | some (some pc) => pc
      | _ => { criterias := [], columns := none }
    if pe.base.discTable.tid = pe.base.core.tableTo.tid then
      let r := buildDiscCrits pe.base.discriminators ctr
      (slots.set index' (some { pc with criterias := pc.criterias ++ r.1 }), r.2)
    else
      let r := buildDiscCritsForced pe.base.discriminators lfa ctr
      (slots.set index' (some { pc with criterias := pc.criterias ++ r.1 }), r.2)
  else (slots, ctr)

/-- The `lastFkAlias` advance after one element of the second pass:
`this.joinBag.GetAlias(pe.Derived)` (SimpleDBA.go 673). -/
def secondPassAlias (pe : PathElement) (lfa : String) (bag : AliasBag) : String × AliasBag :=
  match pe.derived with
  | some d => bag.getAlias d.core.aid
  | none => (lfa, bag)

/-- Second pass of `buildPathCriterias` (SimpleDBA.go 647-674): walk the
association discriminators, attaching them to the element's own slot
when the discriminator table is the destination table and forcing the
running `lastFkAlias` onto them otherwise; after every element,
`lastFkAlias` becomes `joinBag.GetAlias(pe.Derived)`. -/
def bpc2 : List PathElement → Nat → String → AliasBag → Nat →
    List (Option PathCriteria) → AliasBag × Nat × List (Option PathCriteria)
  | [], _, _, bag, ctr, slots => (bag, ctr, slots)
  | pe :: rest, index, lfa, bag, ctr, slots =>
    let index' := index + 1
    let upd := secondPassUpd pe lfa ctr slots index'
    let rA := secondPassAlias pe lfa bag
    bpc2 rest index' rA.1 rA.2 upd.2 upd.1

/-- `DmlBase.buildPathCriterias` (SimpleDBA.go 609-677). -/
def DmlSt.buildPathCriterias (s : DmlSt) (paths : List PathElement) :
    DmlSt × List (Option PathCriteria) :=
  let slots0 : List (Option PathCriteria) := List.replicate (paths.length + 1) none
  let slots1 := bpc1 paths 0 slots0
  let r := bpc2 paths 0 s.tableAlias s.joinBag s.ctr slots1
  ({ s with joinBag := r.1, ctr := r.2.1 }, r.2.2)

/-- The criteria list sitting in slot `j` of the composed path
criteria (empty for a `nil` slot or out of range). -/
def critsAt (slots : List (Option PathCriteria)) (j : Nat) : List Criteria :=
  match slots.get? j with
  | some (some pc) => pc.criterias
  | _ => []

/-- The criterias the first pass accumulates for one element: its
caller-attached criteria followed by the destination table's
discriminator criterias. -/
def seedCrits (pe : PathElement) : List Criteria :=
  (match pe.criteria with | some c => [c] | none => []) ++ pe.base.core.tableTo.criterias

/-- The criterias the second pass appends for one element, given the
running `lastFkAlias` and the node allocator: nothing without
association discriminators; otherwise the discriminator criterias,
alias-forced when the discriminator table is not the destination
table. -/
def discCritsFor (pe : PathElement) (lfa : String) (ctr : Nat) : List Criteria :=
  if pe.base.discriminators.isEmpty then []
  else if pe.base.discTable.tid = pe.base.core.tableTo.tid then
    (buildDiscCrits pe.base.discriminators ctr).1
  else (buildDiscCritsForced pe.base.discriminators lfa ctr).1

/-- The `lastFkAlias` value reached by the second pass after walking
the given elements: the fold of `joinBag.GetAlias(pe.Derived)` starting
from the base table alias (SimpleDBA.go 648, 673). -/
def prevAliasChain (ta : String) (bag : AliasBag) : List PathElement → String × AliasBag
  | [] => (ta, bag)
  | pe :: rest =>
    prevAliasChain (secondPassAlias pe ta bag).1 (secondPassAlias pe ta bag).2 rest

/-- Modelled from the spec: `And(criterias...)` (db package, outside
the reviewed file) groups criteria under a fresh boolean-AND node. -/
def mkAnd (ctr : Nat) (cs : List Criteria) : Criteria × Nat :=
  (.node ctr TOKEN_AND "" CVal.vnone (CList.ofList cs), ctr + 1)

/-- `DmlBase.applyOn` (SimpleDBA.go 810-829): clone the criteria, stamp
the alias of the chain's last hop onto the clone, rewrite raw literals,
and store the result as the last element's ON criteria. -/
def DmlSt.applyOn (s : DmlSt) (chain : List PathElement) (criteria : Criteria) :
    DmlSt × List PathElement :=
  match chain.getLast? with
  | none => (s, chain)
  | some pe =>
    let r0 := criteria.cloneFrom s.ctr
    match pe.derived with
    | none => (s, chain)
    | some fk =>
      let rA : String × AliasBag :=
        match fk.m2m with
        | some (_, t) => s.joinBag.getAlias t.aid
        | none => s.joinBag.getAlias fk.core.aid
      let cpy := r0.1.setTableAlias rA.1
      let r1 := DmlSt.replaceRaw { s with ctr := r0.2, joinBag := rA.2 } cpy
      (r1.1, chain.dropLast ++ [{ pe with criteria := some r1.2 }])

/-- `DmlBase.applyInclude` (SimpleDBA.go 831-847): stamp the alias of
the chain's last hop onto the included column tokens. -/
def DmlSt.applyIncludeGo (s : DmlSt) (chain : List PathElement) (tokens : List Criteria) :
    DmlSt × List Criteria :=
  match chain.getLast? with
  | none => (s, tokens)
  | some pe =>
    match pe.derived with
    | none => (s, tokens)
    | some fk =>
      let rA : String × AliasBag :=
        match fk.m2m with
        | some (_, t) => s.joinBag.getAlias t.aid
        | none => s.joinBag.getAlias fk.core.aid
      ({ s with joinBag := rA.2 }, tokens.map (fun t => t.setTableAlias rA.1))

/-- `DmlBase.applyWhere` (SimpleDBA.go 850-858): clone the caller's
restriction, rewrite raw literals, stamp the base table alias, and
install it as the session's top-level criteria. -/
def DmlSt.applyWhere (s : DmlSt) (restriction : Criteria) : DmlSt :=
  let r0 := restriction.cloneFrom s.ctr
  let r1 := DmlSt.replaceRaw { s with ctr := r0.2 } r0.1
  let tok := r1.2.setTableAlias s.tableAlias
  { r1.1 with criteria := some tok }

/-- Write the rewritten column tokens back into the element that owns
them (the source mutates the shared token pointers of `pe.Columns`). -/
def setColumnsAt (l : List PathElement) (i : Nat) (cols : List Criteria) : List PathElement :=
  match l.get? i with
  | some pe => l.set i { pe with columns := some cols }
  | none => l

/-- The criteria half of one nonempty slot of the `joinTo` loop
(SimpleDBA.go 576-593): slot 0 only parks its conditions in
`firstCriterias`; any other slot merges a parked list into its
conditions and attaches their AND through `applyOn` to the path prefix
ending at this slot. -/
def slotStep (s : DmlSt) (localEls : List PathElement) (pc : PathCriteria) (index : Nat)
    (firstCriterias : Option (List Criteria)) :
    DmlSt × List PathElement × Option (List Criteria) :=
  if !pc.criterias.isEmpty then
    if index = 0 then (s, localEls, some pc.criterias)
    else
      let conds :=
        match firstCriterias with
        | some f => pc.criterias ++ f
        | none => pc.criterias
      let rAnd := mkAnd s.ctr conds
      let r := DmlSt.applyOn { s with ctr := rAnd.2 } (localEls.take index) rAnd.1
      (r.1, r.2 ++ localEls.drop index, none)
  else (s, localEls, firstCriterias)

/-- The column half of one slot of the `joinTo` loop
(SimpleDBA.go 595-597). -/
def slotStep2 (step : DmlSt × List PathElement × Option (List Criteria))
    (pc : PathCriteria) (index : Nat) : DmlSt × List PathElement :=
  match pc.columns with
  | some cols =>
    let r := DmlSt.applyIncludeGo step.1 (step.2.1.take index) cols
    (r.1, if index = 0 then step.2.1 else setColumnsAt step.2.1 (index - 1) r.2)
  | none => (step.1, step.2.1)

/-- The slot loop of `DmlBase.joinTo` (SimpleDBA.go 574-600): slot 0's
criterias are held back in `firstCriterias` and merged into the next
nonempty slot's conditions; every other nonempty slot is turned into an
ON restriction of its prefix via `applyOn`; column inclusions go
through `applyInclude`.  (Slot 0 is in fact always `none`, see
`buildPathCriterias`.) -/
def DmlSt.applySlots : DmlSt → List PathElement → List (Option PathCriteria) → Nat →
    Option (List Criteria) → DmlSt × List PathElement
  | s, localEls, [], _, _ => (s, localEls)
  | s, localEls, slot :: rest, index, firstCriterias =>
    match slot with
    | none => DmlSt.applySlots s localEls rest (index + 1) firstCriterias
    | some pc =>
      let step := slotStep s localEls pc index firstCriterias
      let step2 := slotStep2 step pc index
      DmlSt.applySlots step2.1 step2.2 rest (index + 1) step.2.2

/-- `DmlBase.joinTo` (SimpleDBA.go 566-602) split into its observable
parts: the final state, the final resolved elements and the composed
path criteria slots.  The criteria written by `applyOn`/`applyInclude`
land on the same `PathElement` objects held by the new `Join` and (when
the path was cached) by the cache, so the final elements are written
back to both. -/
def DmlSt.joinToParts (s : DmlSt) (path : List PathElement) (fetch : Bool) :
    DmlSt × List PathElement × List (Option PathCriteria) :=
  let rJ := s.addJoin none path fetch
  let rB := rJ.1.buildPathCriterias rJ.2.1
  let rS := rB.1.applySlots rJ.2.1 rB.2 0 none
  let j : Join := { elements := rS.2, fetch := fetch }
  ({ rS.1 with
      joins := rS.1.joins.dropLast ++ [j]
      lastJoin := some j
      cachedAssociation :=
        if rJ.2.2 then rS.1.cachedAssociation
        else rS.1.cachedAssociation.dropLast ++ [rS.2] },
   rS.2, rB.2)

/-- `DmlBase.joinTo` proper. -/
def DmlSt.joinTo (s : DmlSt) (path : List PathElement) (fetch : Bool) : DmlSt :=
  if path.isEmpty then s else (s.joinToParts path fetch).1

/-- `dbx` fault-code constant referenced by `RawSql.BuildValues`; its
exact literal lives outside the reviewed file. -/
def FAULT_VALUES_STATEMENT : String := "DB07"

/-- `db.RawSql` (SimpleDBA.go 396-403). -/
structure RawSql where
  OriSql : String
  Sql : String
  Names : List String

/-- The panic message of `RawSql.BuildValues` for an unresolvable
parameter (SimpleDBA.go 414-415). -/
def missingParamMsg (name oriSql : String) : String :=
  "[" ++ FAULT_VALUES_STATEMENT ++ "] No value supplied for the SQL parameter \x27"
    ++ name ++ "\x27 for the SQL " ++ oriSql

/-- The loop of `RawSql.BuildValues`: values in declared-name order,
failing at the first declared name with no entry in the map. -/
def buildValuesGo (paramMap : List (String × CVal)) (oriSql : String) :
    List String → Except String (List CVal)
  | [] => .ok []
  | n :: ns =>
    match lookupP paramMap n with
    | none => .error (missingParamMsg n oriSql)
    | some v =>
      match buildValuesGo paramMap oriSql ns with
      | .ok vs => .ok (v :: vs)
      | .error e => .error e

/-- `RawSql.BuildValues` (SimpleDBA.go 408-419); the source's `panic`
is modelled as `Except.error`. -/
def RawSql.BuildValues (r : RawSql) (paramMap : List (String × CVal)) :
    Except String (List CVal) :=
  buildValuesGo paramMap r.OriSql r.Names

/-- Freshness of generated parameter names: no name the session could
still generate is already a key of the parameter map.  It holds for a
fresh session (the map is empty) and is preserved by `replaceRaw`. -/
def freshFor (s : DmlSt) : Prop :=
  ∀ j, s.rawIndex < j → genName s.tableAlias j ∉ s.parameters.map Prod.fst

/-- All state fields except `rawIndex` and `parameters` agree: what
`replaceRaw` leaves untouched. -/
def sameButParams (s s' : DmlSt) : Prop :=
  s'.tableAlias = s.tableAlias ∧ s'.joinBag = s.joinBag ∧ s'.criteria = s.criteria
    ∧ s'.discriminatorCriterias = s.discriminatorCriterias
    ∧ s'.cachedAssociation = s.cachedAssociation ∧ s'.joins = s.joins
    ∧ s'.lastFkAlias = s.lastFkAlias ∧ s'.lastJoin = s.lastJoin ∧ s'.ctr = s.ctr

/-- Induction motive for the `replaceRaw` correctness proof (node part):
on a well-formed tree, `replaceRaw` appends one registered parameter per
raw literal, named by the monotone counter, leaves a raw-free tree and
re-establishes name freshness. -/
def RRP (t : Criteria) : Prop :=
  ∀ s : DmlSt, t.wf = true → freshFor s →
    sameButParams s (s.replaceRaw t).1
    ∧ (s.replaceRaw t).1.rawIndex = s.rawIndex + t.rawCount
    ∧ (s.replaceRaw t).1.parameters
        = s.parameters ++
          ((List.range' (s.rawIndex + 1) t.rawCount).map (genName s.tableAlias)).zip t.rawVals
    ∧ freshFor (s.replaceRaw t).1
    ∧ (s.replaceRaw t).2.rawCount = 0
    ∧ (s.replaceRaw t).2.paramCount = t.paramCount + t.rawCount

/-- Induction motive for the `replaceRaw` correctness proof (list part). -/
def RRQ (ms : CList) : Prop :=
  ∀ s : DmlSt, CList.wfL ms = true → freshFor s →
    sameButParams s (s.replaceRawL ms).1
    ∧ (s.replaceRawL ms).1.rawIndex = s.rawIndex + CList.rawCountL ms
    ∧ (s.replaceRawL ms).1.parameters
        = s.parameters ++
          ((List.range' (s.rawIndex + 1) (CList.rawCountL ms)).map
            (genName s.tableAlias)).zip (CList.rawValsL ms)
    ∧ freshFor (s.replaceRawL ms).1
    ∧ CList.rawCountL (s.replaceRawL ms).2 = 0
    ∧ CList.paramCountL (s.replaceRawL ms).2 = CList.paramCountL ms + CList.rawCountL ms

/-- Every cached path element has its derived association assigned —
true of every cache entry `addJoin` ever stores. -/
def cacheDerivedSet (s : DmlSt) : Bool :=
  s.cachedAssociation.all (fun l => l.all (fun pe => pe.derived.isSome))

/-- All alias-bag keys lie below the allocation counter. -/
def bagKeysBelow (b : AliasBag) (n : Nat) : Bool :=
  b.bag.all (fun p => p.fst < n)

/-- Every cached element's derived association is assigned and its join
destination identity has an alias in the bag. -/
def cacheHopKeysIn (s : DmlSt) : Bool :=
  s.cachedAssociation.all (fun l => l.all (fun pe =>
    match pe.derived with
    | some d => (s.joinBag.lookupA d.hopKey).isSome
    | none => false))

/-- Session well-formedness: the invariants a session reachable through
the `DmlBase` operations maintains (bag keys below the allocator,
cached elements resolved with registered hop aliases). -/
def stWF (s : DmlSt) : Bool :=
  bagKeysBelow s.joinBag s.ctr && cacheHopKeysIn s

/-! ### Concrete schema instances used by witnesses and counterexamples -/

def wT0 : Table := { tid := 0, criterias := [] }

def wTJ : Table := { tid := 1, criterias := [] }

def wT2 : Table := { tid := 2, criterias := [.node 900 TOKEN_EQ "" (CVal.vint 1) .nil] }

def wT3 : Table := { tid := 3, criterias := [] }

/-- A schema-level many-to-many association `wT0 → wTJ → wT2`. -/
def wAssocM2M : Assoc :=
  { core := { aid := 100, tableFrom := wT0, tableTo := wT2, relations := [],
              aliasFrom := "", aliasTo := "" }
    m2m := some
      ({ aid := 101, tableFrom := wT0, tableTo := wTJ, relations := [],
         aliasFrom := "", aliasTo := "" },
       { aid := 102, tableFrom := wTJ, tableTo := wT2, relations := [],
         aliasFrom := "", aliasTo := "" })
    discriminators := [], discTable := wT0 }

/-- A plain schema association `wT2 → wT3` with a discriminator scoped
to its origin table `wT2` (`GetDiscriminatorTable ≠ GetTableTo`). -/
def wAssocD : Assoc :=
  { core := { aid := 110, tableFrom := wT2, tableTo := wT3, relations := [],
              aliasFrom := "", aliasTo := "" }
    m2m := none
    discriminators := [{ column := "deleted", dvalue := CVal.vint 0 }], discTable := wT2 }

/-- A plain schema association `wT0 → wT2` (destination table carries a
table-level discriminator criteria). -/
def wAssocA : Assoc :=
  { core := { aid := 120, tableFrom := wT0, tableTo := wT2, relations := [],
              aliasFrom := "", aliasTo := "" }
    m2m := none, discriminators := [], discTable := wT0 }

/-- A plain schema association `wT2 → wT3`, no discriminators. -/
def wAssocB : Assoc :=
  { core := { aid := 130, tableFrom := wT2, tableTo := wT3, relations := [],
              aliasFrom := "", aliasTo := "" }
    m2m := none, discriminators := [], discTable := wT0 }

/-- A requested path element over a schema association. -/
def wPE (a : Assoc) : PathElement :=
  { base := a, derived := none, inner := true, criteria := none, columns := none,
    preferredAlias := "" }

/-- A fresh session on `wT0`, aliased `t0`, allocator above all schema
identities. -/
def wS0 : DmlSt := DmlSt.init wT0 "t0" 1000

/-- The session after a first `addJoin` along `wAssocA`, so that the
cache holds one resolved path. -/
def wS1 : DmlSt := (wS0.addJoin none [wPE wAssocA] false).1

/-- The pipeline of the C6 counterexample: resolve the path
`[wAssocM2M, wAssocD]` and compose its criteria slots. -/
def wCexResolved : DmlSt × List PathElement × Bool :=
  wS0.addJoin none [wPE wAssocM2M, wPE wAssocD] false

def wCexSlots : DmlSt × List (Option PathCriteria) :=
  wCexResolved.1.buildPathCriterias wCexResolved.2.1

/-- The second element of the counterexample's resolved path. -/
def wCexPE2 : PathElement := (wCexResolved.2.1.get? 1).getD (wPE wAssocD)

/-- The `lastFkAlias` the second pass reaches before the second
element of the counterexample path. -/
def wCexAlias : String :=
  (prevAliasChain wCexResolved.1.tableAlias wCexResolved.1.joinBag (wCexResolved.2.1.take 1)).1

/-- A criteria tree `AND(RAW 7, EQ(RAW "x"))` with two raw literals. -/
def wRawTree : Criteria :=
  .node 500 TOKEN_AND "" CVal.vnone
    (.cons (.node 501 TOKEN_RAW "" (CVal.vint 7) .nil)
      (.cons (.node 502 TOKEN_EQ "" CVal.vnone
        (.cons (.node 503 TOKEN_RAW "" (CVal.vstr "x") .nil) .nil)) .nil))

def wRawSql : RawSql := { OriSql := "select * from T where a = :a and b = :b",
                          Sql := "select * from T where a = ? and b = ?",
                          Names := ["a", "b"] }

def wPMFull : List (String × CVal) := [("a", CVal.vint 1), ("b", CVal.vstr "x")]

def wPMMissing : List (String × CVal) := [("a", CVal.vint 1)]

theorem CList.length_ofList (l : List Criteria) : (CList.ofList l).length = l.length := by
  induction l with
  | nil => rfl
  | cons c cs ih => simp [CList.ofList, CList.length, ih]

theorem natStrAux_irrel : ∀ (n f1 f2 : Nat), n < f1 → n < f2 →
    natStrAux f1 n = natStrAux f2 n := by
  intro n
  induction n using Nat.strong_induction_on with
  | _ n ih =>
    intro f1 f2 h1 h2
    match f1, h1 with
    | g1 + 1, _ =>
      match f2, h2 with
      | g2 + 1, _ =>
        show natStrAux (g1 + 1) n = natStrAux (g2 + 1) n
        unfold natStrAux
        by_cases hn : n < 10
        · simp [hn]
        · simp only [hn, if_false]
          have hdiv : n / 10 < n := Nat.div_lt_self (by omega) (by omega)
          congr 1
          exact ih (n / 10) hdiv g1 g2 (by omega) (by omega)

theorem natStr_data (n : Nat) :
    (natStr n).data =
      if n < 10 then [Nat.digitChar n]
      else (natStr (n / 10)).data ++ [Nat.digitChar (n % 10)] := by
  show (natStrAux (n + 1) n).data = _
  unfold natStrAux
  split
  · rfl
  · next hn =>
    rw [String.data_append]
    have hdiv : n / 10 < n := Nat.div_lt_self (by omega) (by omega)
    rw [natStrAux_irrel (n / 10) n (n / 10 + 1) hdiv (by omega)]
    rfl

theorem natStr_data_ne_nil (n : Nat) : (natStr n).data ≠ [] := by
  rw [natStr_data]
  split
  · simp
  · simp

theorem digitChar_inj_lt10 : ∀ a b : Fin 10, Nat.digitChar a = Nat.digitChar b → a = b := by
  decide

theorem natStr_data_inj : ∀ a b : Nat, (natStr a).data = (natStr b).data → a = b := by
  intro a
  induction a using Nat.strong_induction_on with
  | _ a ih =>
    intro b h
    rw [natStr_data a, natStr_data b] at h
    by_cases ha : a < 10 <;> by_cases hb : b < 10
    · simp only [if_pos ha, if_pos hb] at h
      have := digitChar_inj_lt10 ⟨a, ha⟩ ⟨b, hb⟩ (by simpa using h)
      simpa using congrArg Fin.val this
    · simp only [if_pos ha, if_neg hb] at h
      have hlen := congrArg List.length h
      rw [List.length_append] at hlen
      simp only [List.length_singleton] at hlen
      exact absurd (List.eq_nil_of_length_eq_zero (by omega)) (natStr_data_ne_nil (b / 10))
    · simp only [if_neg ha, if_pos hb] at h
      have hlen := congrArg List.length h
      rw [List.length_append] at hlen
      simp only [List.length_singleton] at hlen
      exact absurd (List.eq_nil_of_length_eq_zero (by omega)) (natStr_data_ne_nil (a / 10))
    · simp only [if_neg ha, if_neg hb] at h
      have hlen : (natStr (a / 10)).data.length = (natStr (b / 10)).data.length := by
        have := congrArg List.length h
        rw [List.length_append, List.length_append] at this
        simp only [List.length_singleton] at this
        omega
      have hparts := List.append_inj h hlen
      have h1 : a / 10 = b / 10 :=
        ih (a / 10) (Nat.div_lt_self (by omega) (by omega)) (b / 10) hparts.1
      have h2 : a % 10 = b % 10 := by
        have hx := hparts.2
        simp at hx
        have := digitChar_inj_lt10 ⟨a % 10, Nat.mod_lt _ (by omega)⟩
          ⟨b % 10, Nat.mod_lt _ (by omega)⟩ (by simpa using hx)
        simpa using congrArg Fin.val this
      omega

theorem natStr_inj {a b : Nat} (h : natStr a = natStr b) : a = b :=
  natStr_data_inj a b (congrArg String.data h)

/-! ### Alias-bag lemmas -/

theorem AliasBag.getAlias_of_lookup {b : AliasBag} {k : Nat} {a : String}
    (h : b.lookupA k = some a) : b.getAlias k = (a, b) := by
  simp [AliasBag.getAlias, h]

theorem AliasBag.lookupA_getAlias_self (b : AliasBag) (k : Nat) :
    (b.getAlias k).2.lookupA k = some (b.getAlias k).1 := by
  unfold AliasBag.getAlias
  cases h : b.lookupA k with
  | some a => simpa using h
  | none =>
    simp only [AliasBag.lookupA] at h ⊢
    cases hf : b.bag.find? (fun p => p.fst == k) with
    | some p => simp [hf] at h
    | none =>
      simp [List.find?_append, hf]

theorem find?_upd_ne (ps : List (Nat × String)) (k k' : Nat) (a : String) (hne : k ≠ k') :
    (ps.map (fun p => if p.fst == k then (k, a) else p)).find? (fun p => p.fst == k')
      = ps.find? (fun p => p.fst == k') := by
  induction ps with
  | nil => rfl
  | cons p ps ih =>
    by_cases hp : p.fst = k
    · have hk : (p.fst == k) = true := by simp [hp]
      have hk1 : (k == k') = false := by simp [hne]
      have hk2 : (p.fst == k') = false := by simp [hp, hne]
      simp only [List.map_cons, hk, if_true, List.find?_cons, hk1, hk2, ih]
    · have hk : (p.fst == k) = false := by simp [hp]
      rw [List.map_cons]
      rw [show (if (p.fst == k) = true then (k, a) else p) = p from by simp [hk]]
      rw [List.find?_cons, List.find?_cons]
      cases hp' : (p.fst == k') with
      | true => simp only [hp']
      | false => simp only [hp']; exact ih

theorem AliasBag.lookupA_getAlias_ne (b : AliasBag) (k k' : Nat) (hne : k ≠ k') :
    (b.getAlias k).2.lookupA k' = b.lookupA k' := by
  unfold AliasBag.getAlias
  cases h : b.lookupA k with
  | some a => rfl
  | none =>
    simp only [AliasBag.lookupA, List.find?_append]
    cases hf : b.bag.find? (fun p => p.fst == k') with
    | some p => simp [hf]
    | none =>
      have hk : (k == k') = false := by simp [hne]
      simp [hf, List.find?, hk]

theorem AliasBag.lookupA_setAlias_ne (b : AliasBag) (k k' : Nat) (a : String) (hne : k ≠ k') :
    (b.setAlias k a).lookupA k' = b.lookupA k' := by
  unfold AliasBag.setAlias AliasBag.lookupA
  split
  · simp only [find?_upd_ne b.bag k k' a hne]
  · simp only [List.find?_append]
    cases hf : b.bag.find? (fun p => p.fst == k') with
    | some p => simp [hf]
    | none =>
      have hk : (k == k') = false := by simp [hne]
      simp [hf, List.find?, hk]

/-! ### C2: many-to-many expansion -/

/-- C2.  Many-to-many expansion: a newly resolved many-to-many
`PathElement` is resolved by `addJoin` as exactly two prepared hops:
the first from the origin alias `fkAlias` to the allocated alias of the
from-junction association, the second from that same junction alias to
the destination alias, which is the caller-preferred alias when one is
given and the allocated to-junction alias otherwise. -/
theorem resolveStep_m2m_two_hops (fkAlias : String) (bag : AliasBag) (ctr : Nat)
    (pe : PathElement) (h : pe.base.m2m.isSome = true) :
    ∃ fp tp, (resolveStep fkAlias bag ctr pe).1.m2m = some (fp, tp)
      ∧ fp.aliasFrom = fkAlias
      ∧ fp.aliasTo = (bag.getAlias (ctr + 1)).1
      ∧ tp.aliasFrom = fp.aliasTo
      ∧ tp.aliasTo =
          (if pe.preferredAlias = "" then ((bag.getAlias (ctr + 1)).2.getAlias (ctr + 2)).1
           else pe.preferredAlias) := by
  match hm : pe.base.m2m with
  | none => rw [hm] at h; simp at h
  | some (f, t) =>
    have hne : (ctr + 2) ≠ (ctr + 1) := by omega
    by_cases hp : pe.preferredAlias = ""
    · have h1 := AliasBag.lookupA_getAlias_ne (bag.getAlias (ctr + 1)).2 (ctr + 2) (ctr + 1) hne
      rw [AliasBag.lookupA_getAlias_self bag (ctr + 1)] at h1
      refine ⟨prepareAssociation fkAlias (bag.getAlias (ctr + 1)).1 { f with aid := ctr + 1 },
        prepareAssociation (bag.getAlias (ctr + 1)).1
          ((bag.getAlias (ctr + 1)).2.getAlias (ctr + 2)).1 { t with aid := ctr + 2 },
        ?_, ?_, ?_, ?_, ?_⟩ <;>
        simp [resolveStep, Assoc.cloneA, hm, hp, prepareAssociation,
          AliasBag.getAlias_of_lookup h1]
    · have h1 := AliasBag.lookupA_setAlias_ne (bag.getAlias (ctr + 1)).2 (ctr + 2) (ctr + 1)
        pe.preferredAlias hne
      rw [AliasBag.lookupA_getAlias_self bag (ctr + 1)] at h1
      refine ⟨prepareAssociation fkAlias (bag.getAlias (ctr + 1)).1 { f with aid := ctr + 1 },
        prepareAssociation (bag.getAlias (ctr + 1)).1 pe.preferredAlias { t with aid := ctr + 2 },
        ?_, ?_, ?_, ?_, ?_⟩ <;>
        simp [resolveStep, Assoc.cloneA, hm, hp, prepareAssociation,
          AliasBag.getAlias_of_lookup h1]

/-- C2 witness: the two hops of a concrete many-to-many resolution. -/
theorem resolveStep_m2m_two_hops_witness :
    (wPE wAssocM2M).base.m2m.isSome = true ∧
    (∃ fp tp, (resolveStep "t0" wS0.joinBag 1000 (wPE wAssocM2M)).1.m2m = some (fp, tp)
      ∧ fp.aliasFrom = "t0"
      ∧ fp.aliasTo = (wS0.joinBag.getAlias (1000 + 1)).1
      ∧ tp.aliasFrom = fp.aliasTo
      ∧ tp.aliasTo =
          (if (wPE wAssocM2M).preferredAlias = ""
           then ((wS0.joinBag.getAlias (1000 + 1)).2.getAlias (1000 + 2)).1
           else (wPE wAssocM2M).preferredAlias)) :=
  ⟨rfl, resolveStep_m2m_two_hops "t0" wS0.joinBag 1000 (wPE wAssocM2M) rfl⟩

/-! ### C4: BuildValues is positional and fails on missing parameters -/

theorem buildValuesGo_ok (pm : List (String × CVal)) (oriSql : String) :
    ∀ ns : List String, (∀ n ∈ ns, (lookupP pm n).isSome = true) →
      buildValuesGo pm oriSql ns = .ok (ns.map fun n => (lookupP pm n).getD CVal.vnone) := by
  intro ns
  induction ns with
  | nil => intro _; rfl
  | cons n ns ih =>
    intro h
    have hn := h n (by simp)
    match hv : lookupP pm n with
    | none => rw [hv] at hn; simp at hn
    | some v =>
      have := ih (fun m hm => h m (by simp [hm]))
      simp [buildValuesGo, hv, this]

theorem buildValuesGo_err (pm : List (String × CVal)) (oriSql : String) :
    ∀ (ns : List String) (n : String),
      ns.find? (fun m => (lookupP pm m).isNone) = some n →
      buildValuesGo pm oriSql ns = .error (missingParamMsg n oriSql) := by
  intro ns
  induction ns with
  | nil => intro n h; simp [List.find?] at h
  | cons m ns ih =>
    intro n h
    rw [List.find?_cons] at h
    cases hm : ((lookupP pm m).isNone : Bool) with
    | true =>
      rw [hm] at h
      simp only [Option.some.injEq] at h
      subst h
      have : lookupP pm m = none := by
        cases hv : lookupP pm m with
        | none => rfl
        | some v => rw [hv] at hm; simp at hm
      simp [buildValuesGo, this]
    | false =>
      rw [hm] at h
      have hv : ∃ v, lookupP pm m = some v := by
        cases hv : lookupP pm m with
        | none => rw [hv] at hm; simp at hm
        | some v => exact ⟨v, rfl⟩
      obtain ⟨v, hv⟩ := hv
      simp [buildValuesGo, hv, ih n h]

/-- C4.  `RawSql.BuildValues` builds the value array positionally, in
declared-name order, from the parameter map; if some declared name has
no entry in the map, it fails (the source panics) with a message naming
the first missing parameter and the originating SQL text. -/
theorem BuildValues_positional_or_missing (r : RawSql) (pm : List (String × CVal)) :
    ((∀ n ∈ r.Names, (lookupP pm n).isSome = true) →
      r.BuildValues pm = .ok (r.Names.map fun n => (lookupP pm n).getD CVal.vnone))
    ∧ (∀ n, r.Names.find? (fun m => (lookupP pm m).isNone) = some n →
        r.BuildValues pm = .error (missingParamMsg n r.OriSql)) :=
  ⟨fun h => buildValuesGo_ok pm r.OriSql r.Names h,
   fun n h => buildValuesGo_err pm r.OriSql r.Names n h⟩

/-- C4 witness: a complete map yields the positional values; dropping
`"b"` yields the descriptive failure naming `"b"` and the SQL text. -/
theorem BuildValues_positional_or_missing_witness :
    ((∀ n ∈ wRawSql.Names, (lookupP wPMFull n).isSome = true) ∧
      wRawSql.BuildValues wPMFull = .ok [CVal.vint 1, CVal.vstr "x"])
    ∧ (wRawSql.Names.find? (fun m => (lookupP wPMMissing m).isNone) = some "b" ∧
      wRawSql.BuildValues wPMMissing
        = .error (missingParamMsg "b" "select * from T where a = :a and b = :b")) :=
  ⟨⟨by decide, (BuildValues_positional_or_missing wRawSql wPMFull).1 (by decide)⟩,
   ⟨by decide, (BuildValues_positional_or_missing wRawSql wPMMissing).2 "b" (by decide)⟩⟩

/-! ### C10: shape of the path-criteria slots -/

theorem bpc1_length : ∀ (pes : List PathElement) (i : Nat) (slots : List (Option PathCriteria)),
    (bpc1 pes i slots).length = slots.length := by
  intro pes
  induction pes with
  | nil => intro i slots; rfl
  | cons pe rest ih =>
    intro i slots
    simp only [bpc1]
    rw [ih, List.length_set]

theorem bpc1_get_le : ∀ (pes : List PathElement) (i : Nat) (slots : List (Option PathCriteria))
    (j : Nat), j ≤ i → (bpc1 pes i slots).get? j = slots.get? j := by
  intro pes
  induction pes with
  | nil => intro i slots j _; rfl
  | cons pe rest ih =>
    intro i slots j hj
    simp only [bpc1]
    rw [ih _ _ j (by omega)]
    exact List.get?_set_ne _ _ (by omega)

theorem secondPassUpd_length (pe : PathElement) (lfa : String) (ctr : Nat)
    (slots : List (Option PathCriteria)) (index' : Nat) :
    (secondPassUpd pe lfa ctr slots index').1.length = slots.length := by
  unfold secondPassUpd
  by_cases hd : (!pe.base.discriminators.isEmpty) = true
  · by_cases ht : pe.base.discTable.tid = pe.base.core.tableTo.tid
    · rw [if_pos hd, if_pos ht]
      exact List.length_set ..
    · rw [if_pos hd, if_neg ht]
      exact List.length_set ..
  · rw [if_neg hd]

theorem secondPassUpd_get_ne (pe : PathElement) (lfa : String) (ctr : Nat)
    (slots : List (Option PathCriteria)) (index' j : Nat) (hj : index' ≠ j) :
    (secondPassUpd pe lfa ctr slots index').1.get? j = slots.get? j := by
  unfold secondPassUpd
  by_cases hd : (!pe.base.discriminators.isEmpty) = true
  · by_cases ht : pe.base.discTable.tid = pe.base.core.tableTo.tid
    · rw [if_pos hd, if_pos ht]
      exact List.get?_set_ne _ _ hj
    · rw [if_pos hd, if_neg ht]
      exact List.get?_set_ne _ _ hj
  · rw [if_neg hd]

theorem secondPassUpd_crits (pe : PathElement) (lfa : String) (ctr : Nat)
    (slots : List (Option PathCriteria)) (index' : Nat) (h : index' < slots.length) :
    critsAt (secondPassUpd pe lfa ctr slots index').1 index'
      = critsAt slots index' ++ discCritsFor pe lfa ctr := by
  unfold secondPassUpd discCritsFor
  by_cases hd : (!pe.base.discriminators.isEmpty) = true
  · have hde : pe.base.discriminators.isEmpty = false := by
      cases hx : pe.base.discriminators.isEmpty
      · rfl
      · rw [hx] at hd; simp at hd
    by_cases ht : pe.base.discTable.tid = pe.base.core.tableTo.tid
    · rw [if_pos hd, if_pos ht]
      unfold critsAt
      rw [List.get?_set_eq_of_lt _ h]
      simp only [hde, Bool.false_eq_true, if_false, if_pos ht]
      cases hs : slots.get? index' with
      | none => simp
      | some o => cases o with
        | none => simp
        | some pc => simp
    · rw [if_pos hd, if_neg ht]
      unfold critsAt
      rw [List.get?_set_eq_of_lt _ h]
      simp only [hde, Bool.false_eq_true, if_false, if_neg ht]
      cases hs : slots.get? index' with
      | none => simp
      | some o => cases o with
        | none => simp
        | some pc => simp
  · have hde : pe.base.discriminators.isEmpty = true := by
      cases hx : pe.base.discriminators.isEmpty
      · rw [hx] at hd; simp at hd
      · rfl
    rw [if_neg hd]
    simp [hde]

theorem bpc2_slots_length : ∀ (pes : List PathElement) (i : Nat) (lfa : String)
    (bag : AliasBag) (ctr : Nat) (slots : List (Option PathCriteria)),
    ((bpc2 pes i lfa bag ctr slots).2.2).length = slots.length := by
  intro pes
  induction pes with
  | nil => intro i lfa bag ctr slots; rfl
  | cons pe rest ih =>
    intro i lfa bag ctr slots
    simp only [bpc2]
    rw [ih, secondPassUpd_length]

theorem bpc2_get_le : ∀ (pes : List PathElement) (i : Nat) (lfa : String)
    (bag : AliasBag) (ctr : Nat) (slots : List (Option PathCriteria)) (j : Nat), j ≤ i →
    ((bpc2 pes i lfa bag ctr slots).2.2).get? j = slots.get? j := by
  intro pes
  induction pes with
  | nil => intro i lfa bag ctr slots j _; rfl
  | cons pe rest ih =>
    intro i lfa bag ctr slots j hj
    simp only [bpc2]
    rw [ih _ _ _ _ _ j (by omega), secondPassUpd_get_ne _ _ _ _ _ _ (by omega)]

/-- C10.  `buildPathCriterias` returns exactly `n + 1` slots for a path
of length `n`, and slot 0 — the base-table slot — is always `nil`:
both composition passes increment the slot index before writing. -/
theorem buildPathCriterias_slots_shape (s : DmlSt) (paths : List PathElement) :
    (s.buildPathCriterias paths).2.length = paths.length + 1
    ∧ (s.buildPathCriterias paths).2.get? 0 = some none := by
  unfold DmlSt.buildPathCriterias
  refine ⟨?_, ?_⟩
  · simp only [bpc2_slots_length, bpc1_length, List.length_replicate]
  · rw [bpc2_get_le _ _ _ _ _ _ 0 (by omega), bpc1_get_le _ _ _ 0 (by omega),
      List.replicate_succ]
    rfl

/-! ### C3: the raw-to-parameter rewrite -/

theorem genName_inj (ta : String) (a b : Nat) (h : genName ta a = genName ta b) : a = b := by
  unfold genName at h
  have hd := congrArg String.data h
  rw [String.data_append, String.data_append, String.data_append, String.data_append] at hd
  have h1 := List.append_cancel_left hd
  exact natStr_data_inj a b h1

theorem genName_injective (ta : String) : Function.Injective (genName ta) :=
  fun a b h => genName_inj ta a b h

theorem setParam_not_mem (ps : List (String × CVal)) (k : String) (v : CVal)
    (h : k ∉ ps.map Prod.fst) : setParam ps k v = ps ++ [(k, v)] := by
  unfold setParam
  rw [if_neg]
  intro hs
  obtain ⟨x, hx, hp⟩ := List.find?_isSome.mp hs
  exact h (by
    have : x.fst = k := by simpa using hp
    rw [← this]
    exact List.mem_map_of_mem Prod.fst hx)

theorem rawVals_length : ∀ t : Criteria, t.rawVals.length = t.rawCount :=
  @Criteria.rec (fun t => t.rawVals.length = t.rawCount)
    (fun ms => (CList.rawValsL ms).length = CList.rawCountL ms)
    (fun _ op _ v ms ih => by
      by_cases hop : op = TOKEN_RAW <;>
        simp [Criteria.rawVals, Criteria.rawCount, hop, ih] <;> omega)
    (by simp [CList.rawValsL, CList.rawCountL])
    (fun c cs ihc ihcs => by
      simp [CList.rawValsL, CList.rawCountL, ihc, ihcs])

theorem rawValsL_length : ∀ ms : CList, (CList.rawValsL ms).length = CList.rawCountL ms :=
  @CList.rec (fun t => t.rawVals.length = t.rawCount)
    (fun ms => (CList.rawValsL ms).length = CList.rawCountL ms)
    (fun _ op _ v ms ih => by
      by_cases hop : op = TOKEN_RAW <;>
        simp [Criteria.rawVals, Criteria.rawCount, hop, ih] <;> omega)
    (by simp [CList.rawValsL, CList.rawCountL])
    (fun c cs ihc ihcs => by
      simp [CList.rawValsL, CList.rawCountL, ihc, ihcs])

theorem sameButParams_trans {s1 s2 s3 : DmlSt}
    (h1 : sameButParams s1 s2) (h2 : sameButParams s2 s3) : sameButParams s1 s3 := by
  obtain ⟨a1, b1, c1, d1, e1, f1, g1, h1', i1⟩ := h1
  obtain ⟨a2, b2, c2, d2, e2, f2, g2, h2', i2⟩ := h2
  exact ⟨a2.trans a1, b2.trans b1, c2.trans c1, d2.trans d1, e2.trans e1,
    f2.trans f1, g2.trans g1, h2'.trans h1', i2.trans i1⟩

theorem rr_node : ∀ (i : Nat) (op al : String) (v : CVal) (ms : CList),
    RRQ ms → RRP (.node i op al v ms) := by
  intro i op al v ms hQ s hwf hfresh
  by_cases hop : op = TOKEN_RAW
  · subst hop
    have hms : ms = CList.nil := by
      cases ms with
      | nil => rfl
      | cons c cs => simp [Criteria.wf, TOKEN_RAW, TOKEN_SUBQUERY] at hwf
    subst hms
    have hkey : genName s.tableAlias (s.rawIndex + 1) ∉ s.parameters.map Prod.fst :=
      hfresh _ (by omega)
    have e1 : s.replaceRaw (Criteria.node i TOKEN_RAW al v CList.nil) =
        ({ s with rawIndex := s.rawIndex + 1,
                  parameters := s.parameters ++ [(genName s.tableAlias (s.rawIndex + 1), v)] },
         Criteria.node i TOKEN_PARAM al (CVal.vstr (genName s.tableAlias (s.rawIndex + 1)))
           CList.nil) := by
      simp [DmlSt.replaceRaw, setParam_not_mem _ _ _ hkey]
    refine ⟨?_, ?_, ?_, ?_, ?_, ?_⟩
    · rw [e1]
      exact ⟨rfl, rfl, rfl, rfl, rfl, rfl, rfl, rfl, rfl⟩
    · rw [e1]
      simp [Criteria.rawCount, CList.rawCountL, TOKEN_RAW]
    · rw [e1]
      simp [Criteria.rawCount, CList.rawCountL, Criteria.rawVals, CList.rawValsL, TOKEN_RAW,
        List.range'_one]
    · rw [e1]
      intro j hj
      simp only [List.map_append, List.mem_append] at *
      rintro (hmem | hmem)
      · exact hfresh j (by omega) hmem
      · simp only [List.map_cons, List.map_nil, List.mem_singleton] at hmem
        exact absurd (genName_inj _ _ _ hmem) (by omega)
    · rw [e1]
      simp [Criteria.rawCount, CList.rawCountL, TOKEN_PARAM, TOKEN_RAW]
    · rw [e1]
      simp [Criteria.rawCount, Criteria.paramCount, CList.rawCountL, CList.paramCountL,
        TOKEN_PARAM, TOKEN_RAW]
  · have hwf' := hwf
    simp only [Criteria.wf, Bool.and_eq_true, decide_eq_true_eq] at hwf'
    obtain ⟨⟨hsub, _⟩, hwfL⟩ := hwf'
    have e1 : s.replaceRaw (Criteria.node i op al v ms) =
        ((s.replaceRawL ms).1, Criteria.node i op al v (s.replaceRawL ms).2) := by
      simp [DmlSt.replaceRaw, hop, hsub]
    obtain ⟨hsame, hri, hps, hfr, hrc, hpc⟩ := hQ s hwfL hfresh
    refine ⟨?_, ?_, ?_, ?_, ?_, ?_⟩
    · rw [e1]; exact hsame
    · rw [e1]
      simp only [Criteria.rawCount, hop, if_false]
      rw [hri]
      omega
    · rw [e1]
      simp only [Criteria.rawCount, Criteria.rawVals, hop, if_false, List.nil_append]
      simpa using hps
    · rw [e1]; exact hfr
    · rw [e1]
      simp [Criteria.rawCount, hop, hrc]
    · rw [e1]
      simp only [Criteria.paramCount, Criteria.rawCount, hop, if_false, hpc]
      omega

theorem rr_nil : RRQ .nil := by
  intro s _ hfresh
  refine ⟨⟨rfl, rfl, rfl, rfl, rfl, rfl, rfl, rfl, rfl⟩, by simp [DmlSt.replaceRawL,
    CList.rawCountL], ?_, ?_, rfl, rfl⟩
  · simp [DmlSt.replaceRawL, CList.rawCountL, CList.rawValsL]
  · exact hfresh

theorem rr_cons : ∀ (c : Criteria) (cs : CList), RRP c → RRQ cs → RRQ (.cons c cs) := by
  intro c cs hP hQ s hwf hfresh
  have hwf' := hwf
  simp only [CList.wfL, Bool.and_eq_true] at hwf'
  obtain ⟨hc, hcs⟩ := hwf'
  obtain ⟨hsame1, hri1, hps1, hfr1, hrc1, hpc1⟩ := hP s hc hfresh
  obtain ⟨hsame2, hri2, hps2, hfr2, hrc2, hpc2⟩ := hQ (s.replaceRaw c).1 hcs hfr1
  have hta1 : (s.replaceRaw c).1.tableAlias = s.tableAlias := hsame1.1
  have e1 : s.replaceRawL (CList.cons c cs) =
      (((s.replaceRaw c).1.replaceRawL cs).1,
       CList.cons (s.replaceRaw c).2 ((s.replaceRaw c).1.replaceRawL cs).2) := by
    simp [DmlSt.replaceRawL]
  refine ⟨?_, ?_, ?_, ?_, ?_, ?_⟩
  · rw [e1]
    exact sameButParams_trans hsame1 hsame2
  · rw [e1, hri2, hri1]
    simp only [CList.rawCountL]
    omega
  · rw [e1, hps2, hps1, hri1, hta1]
    simp only [CList.rawCountL, CList.rawValsL]
    rw [List.append_assoc]
    congr 1
    have hsplit : List.range' (s.rawIndex + 1) (c.rawCount + CList.rawCountL cs)
        = List.range' (s.rawIndex + 1) c.rawCount
          ++ List.range' (s.rawIndex + c.rawCount + 1) (CList.rawCountL cs) := by
      have h0 := List.range'_append (s.rawIndex + 1) c.rawCount (CList.rawCountL cs) 1
      rw [Nat.one_mul, Nat.add_right_comm] at h0
      rw [Nat.add_comm c.rawCount (CList.rawCountL cs), ← h0]
    rw [hsplit, List.map_append, List.zip_append (by simp [rawVals_length])]
  · rw [e1]; exact hfr2
  · rw [e1]
    simp only [CList.rawCountL, hrc1, hrc2]
  · rw [e1]
    simp only [CList.paramCountL, CList.rawCountL]
    rw [hpc1, hpc2]
    omega

theorem RRP_all : ∀ t : Criteria, RRP t :=
  @Criteria.rec RRP RRQ rr_node rr_nil rr_cons

theorem RRQ_all : ∀ ms : CList, RRQ ms :=
  @CList.rec RRP RRQ rr_node rr_nil rr_cons

/-- C3.  On a well-formed criteria tree with `n` raw-literal nodes,
`replaceRaw` appends exactly `n` new entries to the session's parameter
map, one per raw node in visiting order, each under a unique name
generated from the table alias and the monotone raw counter; every raw
node's operator becomes `TOKEN_PARAM` (the parameter count grows by
`n`), and the rewritten tree contains zero raw-literal nodes. -/
theorem replaceRaw_registers_parameters (s : DmlSt) (t : Criteria)
    (hwf : t.wf = true) (hfresh : freshFor s) :
    ∃ news : List (String × CVal),
      (s.replaceRaw t).1.parameters = s.parameters ++ news
      ∧ news.length = t.rawCount
      ∧ news.map Prod.fst
          = (List.range' (s.rawIndex + 1) t.rawCount).map (genName s.tableAlias)
      ∧ (news.map Prod.fst).Nodup
      ∧ news.map Prod.snd = t.rawVals
      ∧ (s.replaceRaw t).2.rawCount = 0
      ∧ (s.replaceRaw t).2.paramCount = t.paramCount + t.rawCount
      ∧ (s.replaceRaw t).1.rawIndex = s.rawIndex + t.rawCount := by
  obtain ⟨hsame, hri, hps, hfr, hrc, hpc⟩ := RRP_all t s hwf hfresh
  have hlen1 : ((List.range' (s.rawIndex + 1) t.rawCount).map (genName s.tableAlias)).length
      = t.rawCount := by simp
  have hlen2 : t.rawVals.length = t.rawCount := rawVals_length t
  refine ⟨_, hps, ?_, ?_, ?_, ?_, hrc, hpc, hri⟩
  · rw [List.length_zip, hlen1, hlen2]
    omega
  · rw [List.map_fst_zip _ _ (by rw [hlen1, hlen2])]
  · rw [List.map_fst_zip _ _ (by rw [hlen1, hlen2])]
    exact (List.nodup_range' _ _).map (genName_injective s.tableAlias)
  · rw [List.map_snd_zip _ _ (by rw [hlen1, hlen2])]

/-- C3 witness: rewriting the concrete two-raw tree in a fresh session. -/
theorem replaceRaw_registers_parameters_witness :
    wRawTree.wf = true ∧ freshFor wS0 ∧
    (∃ news : List (String × CVal),
      (wS0.replaceRaw wRawTree).1.parameters = wS0.parameters ++ news
      ∧ news.length = wRawTree.rawCount
      ∧ news.map Prod.fst
          = (List.range' (wS0.rawIndex + 1) wRawTree.rawCount).map (genName wS0.tableAlias)
      ∧ (news.map Prod.fst).Nodup
      ∧ news.map Prod.snd = wRawTree.rawVals
      ∧ (wS0.replaceRaw wRawTree).2.rawCount = 0
      ∧ (wS0.replaceRaw wRawTree).2.paramCount = wRawTree.paramCount + wRawTree.rawCount
      ∧ (wS0.replaceRaw wRawTree).1.rawIndex = wS0.rawIndex + wRawTree.rawCount) := by
  have hfresh : freshFor wS0 := by
    intro j hj
    exact List.not_mem_nil _
  exact ⟨by decide, hfresh, replaceRaw_registers_parameters wS0 wRawTree (by decide) hfresh⟩

/-! ### C9: clone-before-mutate on criteria -/

theorem cloneFrom_ids : ∀ t : Criteria, ∀ ctr : Nat,
    ctr ≤ (Criteria.cloneFrom ctr t).2
    ∧ ∀ i ∈ (Criteria.cloneFrom ctr t).1.ids, ctr ≤ i ∧ i < (Criteria.cloneFrom ctr t).2 :=
  @Criteria.rec
    (fun t => ∀ ctr : Nat, ctr ≤ (Criteria.cloneFrom ctr t).2
      ∧ ∀ i ∈ (Criteria.cloneFrom ctr t).1.ids, ctr ≤ i ∧ i < (Criteria.cloneFrom ctr t).2)
    (fun ms => ∀ ctr : Nat, ctr ≤ (CList.cloneFromL ctr ms).2
      ∧ ∀ i ∈ CList.idsL (CList.cloneFromL ctr ms).1, ctr ≤ i ∧ i < (CList.cloneFromL ctr ms).2)
    (fun _ op al v ms ih ctr => by
      obtain ⟨hle, hmem⟩ := ih (ctr + 1)
      refine ⟨by simp only [Criteria.cloneFrom]; omega, ?_⟩
      intro i hi
      simp only [Criteria.cloneFrom, Criteria.ids, List.mem_cons] at hi
      rcases hi with hi | hi
      · subst hi
        simp only [Criteria.cloneFrom]
        omega
      · have := hmem i hi
        simp only [Criteria.cloneFrom]
        omega)
    (fun ctr => ⟨Nat.le_refl ctr, by simp [CList.cloneFromL, CList.idsL]⟩)
    (fun c cs ihc ihcs ctr => by
      obtain ⟨h1, m1⟩ := ihc ctr
      obtain ⟨h2, m2⟩ := ihcs (Criteria.cloneFrom ctr c).2
      refine ⟨by simp only [CList.cloneFromL]; omega, ?_⟩
      intro i hi
      simp only [CList.cloneFromL, CList.idsL, List.mem_append] at hi
      rcases hi with hi | hi
      · have := m1 i hi
        simp only [CList.cloneFromL]
        omega
      · have := m2 i hi
        simp only [CList.cloneFromL]
        omega)

theorem setTableAlias_ids : ∀ (t : Criteria) (a : String), (t.setTableAlias a).ids = t.ids :=
  @Criteria.rec
    (fun t => ∀ a : String, (t.setTableAlias a).ids = t.ids)
    (fun ms => ∀ a : String, CList.idsL (CList.setTableAliasL a ms) = CList.idsL ms)
    (fun _ op al v ms ih a => by
      by_cases hal : al = "" <;> simp [Criteria.setTableAlias, hal, Criteria.ids, ih a])
    (fun a => rfl)
    (fun c cs ihc ihcs a => by
      simp [CList.setTableAliasL, CList.idsL, ihc a, ihcs a])

theorem replaceRaw_ids : ∀ (t : Criteria) (s : DmlSt), (s.replaceRaw t).2.ids = t.ids :=
  @Criteria.rec
    (fun t => ∀ s : DmlSt, (s.replaceRaw t).2.ids = t.ids)
    (fun ms => ∀ s : DmlSt, CList.idsL (s.replaceRawL ms).2 = CList.idsL ms)
    (fun _ op al v ms ih s => by
      by_cases hop : op = TOKEN_RAW
      · simp [DmlSt.replaceRaw, hop, Criteria.ids]
      · by_cases hsub : op = TOKEN_SUBQUERY
        · cases v <;>
            simp [DmlSt.replaceRaw, hop, hsub, Criteria.ids, TOKEN_RAW, TOKEN_SUBQUERY]
        · simp [DmlSt.replaceRaw, hop, hsub, Criteria.ids, ih s])
    (fun s => rfl)
    (fun c cs ihc ihcs s => by
      simp [DmlSt.replaceRawL, CList.idsL, ihc s, ihcs (s.replaceRaw c).1])

/-- C9.  Clone-before-mutate: the criteria stored by `applyOn` as the
ON restriction and the criteria installed by `applyWhere` as the
top-level filter are built from a deep clone carrying only fresh node
identities, so they share no node with the template criteria passed in
(which therefore remains unmodified by the attach operation). -/
theorem applyOn_applyWhere_clone_fresh (s : DmlSt) (chain : List PathElement) (c : Criteria)
    (hids : ∀ i ∈ c.ids, i < s.ctr)
    (hlast : ((chain.getLast?).bind PathElement.derived).isSome = true) :
    (∃ c', ((s.applyOn chain c).2.getLast?).bind PathElement.criteria = some c'
        ∧ List.Disjoint c'.ids c.ids)
    ∧ (∃ c', (s.applyWhere c).criteria = some c' ∧ List.Disjoint c'.ids c.ids) := by
  have hclone := cloneFrom_ids c s.ctr
  constructor
  · match hpe : chain.getLast? with
    | none => rw [hpe] at hlast; simp at hlast
    | some pe =>
      rw [hpe] at hlast
      match hfk : pe.derived with
      | none => simp [hfk] at hlast
      | some fk =>
        simp only [DmlSt.applyOn, hpe, hfk]
        rw [List.getLast?_concat]
        refine ⟨_, rfl, ?_⟩
        intro i hi hj
        rw [replaceRaw_ids, setTableAlias_ids] at hi
        have h1 := hclone.2 i hi
        have h2 := hids i hj
        omega
  · refine ⟨_, rfl, ?_⟩
    intro i hi hj
    rw [setTableAlias_ids, replaceRaw_ids] at hi
    have h1 := hclone.2 i hi
    have h2 := hids i hj
    omega

/-- C9 witness: attaching the raw tree through a resolved single-step
chain, and installing it as the WHERE filter, in a concrete session. -/
theorem applyOn_applyWhere_clone_fresh_witness :
    (∀ i ∈ wRawTree.ids, i < wS1.ctr)
    ∧ ((((wS0.addJoin none [wPE wAssocA] false).2.1.getLast?).bind
        PathElement.derived).isSome = true)
    ∧ ((∃ c', ((wS1.applyOn (wS0.addJoin none [wPE wAssocA] false).2.1 wRawTree).2.getLast?).bind
          PathElement.criteria = some c' ∧ List.Disjoint c'.ids wRawTree.ids)
      ∧ (∃ c', (wS1.applyWhere wRawTree).criteria = some c'
          ∧ List.Disjoint c'.ids wRawTree.ids)) :=
  ⟨by decide, by decide,
   applyOn_applyWhere_clone_fresh wS1 (wS0.addJoin none [wPE wAssocA] false).2.1 wRawTree
     (by decide) (by decide)⟩

/-! ### C5 and C6: placement of discriminator criterias in the slots -/

theorem critsAt_firstPassSlot (pe : PathElement) :
    (match firstPassSlot pe with | some pc => pc.criterias | _ => []) = seedCrits pe := by
  unfold firstPassSlot seedCrits
  cases hc : pe.criteria <;> cases hcols : pe.columns <;>
    cases hti : pe.base.core.tableTo.criterias <;>
      simp [hc, hcols, hti]

theorem bpc1_char : ∀ (pes : List PathElement) (i : Nat) (slots : List (Option PathCriteria))
    (t : Nat) (pe : PathElement), pes.get? t = some pe → i + t + 1 < slots.length →
    (bpc1 pes i slots).get? (i + t + 1) = some (firstPassSlot pe) := by
  intro pes
  induction pes with
  | nil => intro i slots t pe h _; simp at h
  | cons pe' rest ih =>
    intro i slots t pe h hlen
    cases t with
    | zero =>
      simp only [List.get?_cons_zero, Option.some.injEq] at h
      subst h
      simp only [bpc1, Nat.add_zero] at *
      rw [bpc1_get_le rest (i + 1) _ (i + 1) (by omega)]
      exact List.get?_set_eq_of_lt _ hlen
    | succ t' =>
      have h' : rest.get? t' = some pe := by simpa using h
      simp only [bpc1]
      have hrec := ih (i + 1) (slots.set (i + 1) (firstPassSlot pe')) t' pe h'
        (by rw [List.length_set]; omega)
      rw [show i + (t' + 1) + 1 = (i + 1) + t' + 1 from by omega]
      exact hrec

theorem critsAt_congr {slots slots' : List (Option PathCriteria)} {j : Nat}
    (h : slots.get? j = slots'.get? j) : critsAt slots j = critsAt slots' j := by
  unfold critsAt
  rw [h]

theorem bpc2_char : ∀ (pes : List PathElement) (i : Nat) (lfa : String) (bag : AliasBag)
    (ctr : Nat) (slots : List (Option PathCriteria)) (t : Nat) (pe : PathElement),
    pes.get? t = some pe → i + t + 1 < slots.length →
    ∃ c0 : Nat, critsAt ((bpc2 pes i lfa bag ctr slots).2.2) (i + t + 1)
      = critsAt slots (i + t + 1)
        ++ discCritsFor pe (prevAliasChain lfa bag (pes.take t)).1 c0 := by
  intro pes
  induction pes with
  | nil => intro i lfa bag ctr slots t pe h _; simp at h
  | cons pe' rest ih =>
    intro i lfa bag ctr slots t pe h hlen
    cases t with
    | zero =>
      simp only [List.get?_cons_zero, Option.some.injEq] at h
      subst h
      simp only [bpc2, Nat.add_zero, List.take_zero, prevAliasChain] at *
      refine ⟨ctr, ?_⟩
      rw [critsAt_congr (bpc2_get_le rest (i + 1) _ _ _ _ (i + 1) (by omega))]
      exact secondPassUpd_crits pe' lfa ctr slots (i + 1) hlen
    | succ t' =>
      have h' : rest.get? t' = some pe := by simpa using h
      simp only [bpc2]
      rw [show i + (t' + 1) + 1 = (i + 1) + t' + 1 from by omega]
      obtain ⟨c0, hc0⟩ := ih (i + 1) (secondPassAlias pe' lfa bag).1 (secondPassAlias pe' lfa bag).2
        (secondPassUpd pe' lfa ctr slots (i + 1)).2 (secondPassUpd pe' lfa ctr slots (i + 1)).1
        t' pe h' (by rw [secondPassUpd_length]; omega)
      refine ⟨c0, ?_⟩
      rw [hc0, critsAt_congr (secondPassUpd_get_ne pe' lfa ctr slots (i + 1) ((i + 1) + t' + 1)
        (by omega))]
      simp [prevAliasChain, List.take_succ_cons]

/-- C5.  Table-level discriminator placement: slot `j` (1-based) of
`buildPathCriterias` consists of exactly step `j`'s own contributions —
its caller-attached criteria followed by the discriminator criterias of
its association's destination table (`seedCrits`), then criterias
derived from step `j`'s own association discriminators (empty when the
association declares none).  Slot 0, the base-table slot, stays empty,
so a destination table's criterias land in the slot of their hop and in
no other slot. -/
theorem buildPathCriterias_table_disc_placement (s : DmlSt) (paths : List PathElement)
    (j : Nat) (pe : PathElement) (hj : 1 ≤ j) (hpe : paths.get? (j - 1) = some pe) :
    critsAt (s.buildPathCriterias paths).2 0 = []
    ∧ ∃ dcrits : List Criteria,
        critsAt (s.buildPathCriterias paths).2 j = seedCrits pe ++ dcrits
        ∧ (pe.base.discriminators = [] → dcrits = []) := by
  have hlt : j - 1 < paths.length := by
    by_contra hge
    rw [List.get?_eq_none.mpr (by omega)] at hpe
    exact Option.noConfusion hpe
  constructor
  · unfold DmlSt.buildPathCriterias
    rw [critsAt_congr (bpc2_get_le _ _ _ _ _ _ 0 (by omega)),
        critsAt_congr (bpc1_get_le _ _ _ 0 (by omega))]
    unfold critsAt
    rw [List.replicate_succ]
    rfl
  · unfold DmlSt.buildPathCriterias
    obtain ⟨c0, hc0⟩ := bpc2_char paths 0 s.tableAlias s.joinBag s.ctr
      (bpc1 paths 0 (List.replicate (paths.length + 1) none)) (j - 1) pe hpe
      (by rw [bpc1_length, List.length_replicate]; omega)
    have hx : (0 : Nat) + (j - 1) + 1 = j := by omega
    rw [hx] at hc0
    refine ⟨discCritsFor pe
      (prevAliasChain s.tableAlias s.joinBag (paths.take (j - 1))).1 c0, ?_, ?_⟩
    · rw [hc0]
      congr 1
      have hb := bpc1_char paths 0 (List.replicate (paths.length + 1) none) (j - 1) pe hpe
        (by rw [List.length_replicate]; omega)
      rw [hx] at hb
      unfold critsAt
      rw [hb]
      have hcs := critsAt_firstPassSlot pe
      cases hfp : firstPassSlot pe with
      | none => rw [hfp] at hcs; simpa using hcs
      | some pc => rw [hfp] at hcs; simpa using hcs
    · intro hde
      simp [discCritsFor, hde]

/-- C5 witness: the first hop of a concrete resolved path whose
destination table `wT2` declares a table-level discriminator. -/
theorem buildPathCriterias_table_disc_placement_witness :
    ((1 : Nat) ≤ 1
      ∧ (wS0.addJoin none [wPE wAssocA] false).2.1.get? 0
          = some (((wS0.addJoin none [wPE wAssocA] false).2.1.get? 0).getD (wPE wAssocA)))
    ∧ (critsAt (wS1.buildPathCriterias (wS0.addJoin none [wPE wAssocA] false).2.1).2 0 = []
      ∧ ∃ dcrits : List Criteria,
          critsAt (wS1.buildPathCriterias (wS0.addJoin none [wPE wAssocA] false).2.1).2 1
            = seedCrits (((wS0.addJoin none [wPE wAssocA] false).2.1.get? 0).getD
                (wPE wAssocA)) ++ dcrits
          ∧ ((((wS0.addJoin none [wPE wAssocA] false).2.1.get? 0).getD
                (wPE wAssocA)).base.discriminators = [] → dcrits = [])) :=
  ⟨⟨by omega, rfl⟩,
   buildPathCriterias_table_disc_placement wS1 (wS0.addJoin none [wPE wAssocA] false).2.1 1
     (((wS0.addJoin none [wPE wAssocA] false).2.1.get? 0).getD (wPE wAssocA)) (by omega) rfl⟩

/-- C6 counterexample: in the resolved path `[wAssocM2M, wAssocD]`, the
previous hop of step 2 is the many-to-many element, whose join
destination (its `ToM2M` end, identity 1002) carries the alias
`"t0_j2"`; yet the origin-scoped discriminator criteria of step 2 is
forced to `"t0_j4"` — a fresh alias allocated for the composite
many-to-many association object, used by no join — so the criteria's
table alias is *not* the alias of the previous hop, refuting the claim
as stated. -/
theorem buildPathCriterias_origin_disc_alias_cex :
    ((wCexResolved.2.1.get? 0).bind PathElement.derived).map Assoc.hopKey = some 1002
    ∧ wCexResolved.1.joinBag.lookupA 1002 = some "t0_j2"
    ∧ (critsAt wCexSlots.2 2).map Criteria.talias = ["t0_j4"]
    ∧ "t0_j4" ≠ "t0_j2" :=
  ⟨rfl, rfl, rfl, by decide⟩

theorem buildDiscCritsForced_taliases : ∀ (ds : List Discriminator) (lfa : String) (ctr : Nat),
    ((buildDiscCritsForced ds lfa ctr).1).map Criteria.talias = ds.map (fun _ => lfa) := by
  intro ds
  induction ds with
  | nil => intro lfa ctr; rfl
  | cons d ds ih =>
    intro lfa ctr
    simp [buildDiscCritsForced, Discriminator.criteriaOf, Criteria.setTableAlias,
      Criteria.talias, ih]

/-- C6 (amended).  Association-level discriminator aliasing: when the
discriminator's governing table equals the destination table, the
criterias attach to the step's own slot with no alias forced; otherwise
every discriminator criteria of step `j` has its table alias forced to
the running `GetAlias(pe.Derived)` chain value of the previous elements
— the base table alias for the first step, and for a previous
*many-to-many* element a freshly allocated alias of the composite
association object rather than the destination alias of its junction
hop. -/
theorem buildPathCriterias_disc_alias_characterization (s : DmlSt) (paths : List PathElement)
    (j : Nat) (pe : PathElement) (hj : 1 ≤ j) (hpe : paths.get? (j - 1) = some pe)
    (hd : pe.base.discriminators ≠ []) :
    ∃ c0 : Nat,
      (pe.base.discTable.tid = pe.base.core.tableTo.tid →
        critsAt (s.buildPathCriterias paths).2 j
          = seedCrits pe ++ (buildDiscCrits pe.base.discriminators c0).1)
      ∧ (pe.base.discTable.tid ≠ pe.base.core.tableTo.tid →
          critsAt (s.buildPathCriterias paths).2 j
            = seedCrits pe
              ++ (buildDiscCritsForced pe.base.discriminators
                  ((prevAliasChain s.tableAlias s.joinBag (paths.take (j - 1))).1) c0).1
          ∧ ((buildDiscCritsForced pe.base.discriminators
                ((prevAliasChain s.tableAlias s.joinBag (paths.take (j - 1))).1) c0).1).map
                Criteria.talias
              = pe.base.discriminators.map
                  (fun _ => (prevAliasChain s.tableAlias s.joinBag (paths.take (j - 1))).1)) := by
  have hlt : j - 1 < paths.length := by
    by_contra hge
    rw [List.get?_eq_none.mpr (by omega)] at hpe
    exact Option.noConfusion hpe
  have hde : pe.base.discriminators.isEmpty = false := by
    cases hx : pe.base.discriminators with
    | nil => exact absurd hx hd
    | cons d ds => rfl
  unfold DmlSt.buildPathCriterias
  obtain ⟨c0, hc0⟩ := bpc2_char paths 0 s.tableAlias s.joinBag s.ctr
    (bpc1 paths 0 (List.replicate (paths.length + 1) none)) (j - 1) pe hpe
    (by rw [bpc1_length, List.length_replicate]; omega)
  have hx : (0 : Nat) + (j - 1) + 1 = j := by omega
  rw [hx] at hc0
  have hseed : critsAt (bpc1 paths 0 (List.replicate (paths.length + 1) none)) j
      = seedCrits pe := by
    have hb := bpc1_char paths 0 (List.replicate (paths.length + 1) none) (j - 1) pe hpe
      (by rw [List.length_replicate]; omega)
    rw [hx] at hb
    unfold critsAt
    rw [hb]
    have hcs := critsAt_firstPassSlot pe
    cases hfp : firstPassSlot pe with
    | none => rw [hfp] at hcs; simpa using hcs
    | some pc => rw [hfp] at hcs; simpa using hcs
  refine ⟨c0, ?_, ?_⟩
  · intro ht
    rw [hc0, hseed]
    congr 1
    simp [discCritsFor, hde, ht]
  · intro ht
    constructor
    · rw [hc0, hseed]
      congr 1
      simp [discCritsFor, hde, ht]
    · exact buildDiscCritsForced_taliases _ _ _

/-- C6 (amended) witness: the counterexample pipeline, with the forced
alias equal to the fresh composite-association alias. -/
theorem buildPathCriterias_disc_alias_characterization_witness :
    ((1 : Nat) ≤ 2
      ∧ wCexResolved.2.1.get? 1 = some wCexPE2
      ∧ wCexPE2.base.discriminators ≠ [])
    ∧ (∃ c0 : Nat,
      (wCexPE2.base.discTable.tid = wCexPE2.base.core.tableTo.tid →
        critsAt (wCexResolved.1.buildPathCriterias wCexResolved.2.1).2 2
          = seedCrits wCexPE2 ++ (buildDiscCrits wCexPE2.base.discriminators c0).1)
      ∧ (wCexPE2.base.discTable.tid ≠ wCexPE2.base.core.tableTo.tid →
          critsAt (wCexResolved.1.buildPathCriterias wCexResolved.2.1).2 2
            = seedCrits wCexPE2
              ++ (buildDiscCritsForced wCexPE2.base.discriminators
                  (prevAliasChain wCexResolved.1.tableAlias wCexResolved.1.joinBag
                    (wCexResolved.2.1.take 1)).1 c0).1
          ∧ ((buildDiscCritsForced wCexPE2.base.discriminators
                (prevAliasChain wCexResolved.1.tableAlias wCexResolved.1.joinBag
                  (wCexResolved.2.1.take 1)).1 c0).1).map Criteria.talias
              = wCexPE2.base.discriminators.map
                  (fun _ => (prevAliasChain wCexResolved.1.tableAlias wCexResolved.1.joinBag
                    (wCexResolved.2.1.take 1)).1))) :=
  ⟨⟨by omega, rfl, by
      intro h
      have hlen : wCexPE2.base.discriminators.length = 1 := by decide
      rw [h] at hlen
      simp at hlen⟩,
   buildPathCriterias_disc_alias_characterization wCexResolved.1 wCexResolved.2.1 2
     wCexPE2 (by omega) rfl (by
      intro h
      have hlen : wCexPE2.base.discriminators.length = 1 := by decide
      rw [h] at hlen
      simp at hlen)⟩

/-! ### C8: the cache-append condition of addJoin -/

theorem commonLen_le_left : ∀ (a b : List PathElement), commonLen a b ≤ a.length := by
  intro a
  induction a with
  | nil => intro b; cases b <;> simp [commonLen]
  | cons x xs ih =>
    intro b
    cases b with
    | nil => simp [commonLen]
    | cons y ys =>
      simp only [commonLen, List.length_cons]
      split
      · have := ih ys
        omega
      · omega

theorem commonLen_le_right : ∀ (a b : List PathElement), commonLen a b ≤ b.length := by
  intro a
  induction a with
  | nil => intro b; cases b <;> simp [commonLen]
  | cons x xs ih =>
    intro b
    cases b with
    | nil => simp [commonLen]
    | cons y ys =>
      simp only [commonLen, List.length_cons]
      split
      · have := ih ys
        omega
      · omega

theorem commonLen_take : ∀ (e req : List PathElement),
    commonLen (e.take (commonLen e req)) req = commonLen e req := by
  intro e
  induction e with
  | nil => intro req; cases req <;> simp [commonLen]
  | cons x xs ih =>
    intro req
    cases req with
    | nil => simp [commonLen]
    | cons y ys =>
      simp only [commonLen]
      by_cases h : x.base.core.aid = y.base.core.aid
      · rw [if_pos h]
        simp only [List.take_succ_cons, commonLen, if_pos h, ih ys]
      · rw [if_neg h]
        simp [commonLen]

theorem addJoinLoop_matched : ∀ (req common : List PathElement) (acc : JAcc) (ta : String),
    (addJoinLoop ta req common acc).matched
      = (acc.matched && decide (req.length ≤ commonLen common req)) := by
  intro req
  induction req with
  | nil => intro common acc ta; simp [addJoinLoop]
  | cons pe rest ih =>
    intro common acc ta
    cases hm : acc.matched with
    | false =>
      simp only [addJoinLoop, probeStep, freshAcc, hm, Bool.false_and, if_false,
        Bool.false_eq_true]
      rw [ih]
      simp
    | true =>
      cases common with
      | nil =>
        simp only [addJoinLoop, probeStep, freshAcc, hm, if_true, Bool.true_and]
        rw [ih]
        simp [commonLen]
      | cons c cs =>
        by_cases hid : c.base.core.aid = pe.base.core.aid
        · cases hd : c.derived with
          | some d =>
            simp only [addJoinLoop, probeStep, hm, if_true, hid, hd]
            rw [ih]
            simp only [commonLen, hid, if_pos hid, List.length_cons, Bool.true_and]
            congr 1
            simp [Nat.add_le_add_iff_right]
          | none =>
            simp only [addJoinLoop, probeStep, freshAcc, hm, if_true, hid, hd]
            rw [ih]
            simp only [commonLen, hid, if_pos hid, List.length_cons, Bool.true_and]
            congr 1
            simp [Nat.add_le_add_iff_right]
        · simp only [addJoinLoop, probeStep, freshAcc, hm, if_true, hid, if_false]
          rw [ih]
          simp only [commonLen, if_neg hid, Bool.false_and]
          simp

theorem DCP_fold (req : List PathElement) : ∀ (cache : List (List PathElement))
    (best : List PathElement), commonLen best req = best.length →
    commonLen (List.foldl (DCPStep req) best cache) req
        = (List.foldl (DCPStep req) best cache).length
    ∧ best.length ≤ (List.foldl (DCPStep req) best cache).length
    ∧ (∀ e ∈ cache, commonLen e req ≤ (List.foldl (DCPStep req) best cache).length)
    ∧ (List.foldl (DCPStep req) best cache = best
        ∨ ∃ e ∈ cache, commonLen e req = (List.foldl (DCPStep req) best cache).length) := by
  intro cache
  induction cache with
  | nil =>
    intro best hb
    refine ⟨hb, Nat.le_refl _, by simp, Or.inl rfl⟩
  | cons e cache ih =>
    intro best hb
    rw [List.foldl_cons]
    by_cases hgt : commonLen e req > best.length
    · have hstep : DCPStep req best e = e.take (commonLen e req) := by
        unfold DCPStep
        rw [if_pos hgt]
      rw [hstep]
      have hlen : (e.take (commonLen e req)).length = commonLen e req := by
        rw [List.length_take]
        exact Nat.min_eq_left (commonLen_le_left e req)
      obtain ⟨c1, c2, c3, c4⟩ := ih (e.take (commonLen e req)) (by rw [commonLen_take, hlen])
      refine ⟨c1, by omega, ?_, ?_⟩
      · intro e' he'
        rcases List.mem_cons.mp he' with rfl | hmem
        · omega
        · exact c3 e' hmem
      · rcases c4 with hc | ⟨e', he', h2⟩
        · right
          refine ⟨e, List.mem_cons_self e cache, ?_⟩
          rw [hc, hlen]
        · right
          exact ⟨e', List.mem_cons_of_mem e he', h2⟩
    · have hstep : DCPStep req best e = best := by
        unfold DCPStep
        rw [if_neg hgt]
      rw [hstep]
      obtain ⟨c1, c2, c3, c4⟩ := ih best hb
      refine ⟨c1, c2, ?_, ?_⟩
      · intro e' he'
        rcases List.mem_cons.mp he' with rfl | hmem
        · omega
        · exact c3 e' hmem
      · rcases c4 with hc | ⟨e', he', h2⟩
        · exact Or.inl hc
        · exact Or.inr ⟨e', List.mem_cons_of_mem e he', h2⟩

/-- C8.  Cache-append condition: for a nonempty requested path,
`addJoin` leaves the cache of traversed paths unchanged exactly when
the whole request is a prefix match of an already cached path, and
otherwise appends the resolved elements as one new entry. -/
theorem addJoin_cache_append_iff (s : DmlSt) (req : List PathElement) (fetch : Bool)
    (hne : req ≠ []) :
    ((∃ e ∈ s.cachedAssociation, commonLen e req = req.length) →
      (s.addJoin none req fetch).1.cachedAssociation = s.cachedAssociation)
    ∧ (¬ (∃ e ∈ s.cachedAssociation, commonLen e req = req.length) →
      (s.addJoin none req fetch).1.cachedAssociation
        = s.cachedAssociation ++ [(s.addJoin none req fetch).2.1]) := by
  obtain ⟨d1, d2, d3, d4⟩ := DCP_fold req s.cachedAssociation []
    (by cases req <;> simp [commonLen])
  have hml := addJoinLoop_matched req (DeepestCommonPath s.cachedAssociation req)
    { bag := s.joinBag, ctr := s.ctr, lastFk := none, f := 0, matched := true,
      localEls := [] } s.tableAlias
  constructor
  · intro ⟨e, he, hce⟩
    have hle : req.length ≤ commonLen (DeepestCommonPath s.cachedAssociation req) req := by
      unfold DeepestCommonPath
      rw [d1, ← hce]
      exact d3 e he
    have hmt : (addJoinLoop s.tableAlias req (DeepestCommonPath s.cachedAssociation req)
        { bag := s.joinBag, ctr := s.ctr, lastFk := none, f := 0, matched := true,
          localEls := [] }).matched = true := by
      rw [hml]
      simp [hle]
    unfold DmlSt.addJoin
    simp only [hmt, if_true]
  · intro hno
    have hgt : ¬ req.length ≤ commonLen (DeepestCommonPath s.cachedAssociation req) req := by
      intro hle
      have h1 : commonLen (DeepestCommonPath s.cachedAssociation req) req ≤ req.length :=
        commonLen_le_right _ _
      have heq : commonLen (DeepestCommonPath s.cachedAssociation req) req = req.length := by
        omega
      unfold DeepestCommonPath at heq
      rcases d4 with hc | ⟨e, he, h2⟩
      · rw [hc] at heq
        simp [commonLen] at heq
        cases hreq : req with
        | nil => exact hne hreq
        | cons a as' =>
          rw [hreq] at heq
          simp [commonLen] at heq
      · exact hno ⟨e, he, by rw [h2, ← d1, heq]⟩
    have hmt : (addJoinLoop s.tableAlias req (DeepestCommonPath s.cachedAssociation req)
        { bag := s.joinBag, ctr := s.ctr, lastFk := none, f := 0, matched := true,
          localEls := [] }).matched = false := by
      rw [hml]
      simp [hgt]
    unfold DmlSt.addJoin
    simp only [hmt, if_false, Bool.false_eq_true]

/-- C8 witness: repeating the cached single-step path leaves the cache
unchanged; a fresh path gets appended. -/
theorem addJoin_cache_append_iff_witness :
    (([wPE wAssocA] : List PathElement) ≠ []
      ∧ (∃ e ∈ wS1.cachedAssociation, commonLen e [wPE wAssocA] = 1)
      ∧ (wS1.addJoin none [wPE wAssocA] false).1.cachedAssociation
          = wS1.cachedAssociation)
    ∧ (([wPE wAssocM2M] : List PathElement) ≠ []
      ∧ ¬ (∃ e ∈ wS1.cachedAssociation, commonLen e [wPE wAssocM2M] = 1)
      ∧ (wS1.addJoin none [wPE wAssocM2M] false).1.cachedAssociation
          = wS1.cachedAssociation ++ [(wS1.addJoin none [wPE wAssocM2M] false).2.1]) :=
  ⟨⟨by simp, by decide,
    (addJoin_cache_append_iff wS1 [wPE wAssocA] false (by simp)).1 (by decide)⟩,
   ⟨by simp, by decide,
    (addJoin_cache_append_iff wS1 [wPE wAssocM2M] false (by simp)).2 (by decide)⟩⟩

/-! ### C1: prefix reuse against the cache of traversed paths -/

theorem DCP_fold_src (req : List PathElement) : ∀ (cache : List (List PathElement))
    (best : List PathElement),
    List.foldl (DCPStep req) best cache = best
    ∨ ∃ e ∈ cache, List.foldl (DCPStep req) best cache = e.take (commonLen e req) := by
  intro cache
  induction cache with
  | nil => intro best; exact Or.inl rfl
  | cons e cache ih =>
    intro best
    rw [List.foldl_cons]
    rcases ih (DCPStep req best e) with hc | ⟨e2, he2, h2⟩
    · rw [hc]
      by_cases hgt : commonLen e req > best.length
      · refine Or.inr ⟨e, List.mem_cons_self e cache, ?_⟩
        unfold DCPStep
        rw [if_pos hgt]
      · refine Or.inl ?_
        unfold DCPStep
        rw [if_neg hgt]
    · exact Or.inr ⟨e2, List.mem_cons_of_mem e he2, h2⟩

theorem DCP_mem (cache : List (List PathElement)) (req : List PathElement) :
    ∀ x ∈ DeepestCommonPath cache req, ∃ e ∈ cache, x ∈ e := by
  intro x hx
  unfold DeepestCommonPath at hx
  rcases DCP_fold_src req cache [] with hc | ⟨e, he, h2⟩
  · rw [hc] at hx
    simp at hx
  · rw [h2] at hx
    exact ⟨e, he, List.take_subset _ _ hx⟩

theorem addJoinLoop_localEls_pfx (ta : String) : ∀ (req common : List PathElement)
    (acc : JAcc), acc.localEls <+: (addJoinLoop ta req common acc).localEls := by
  intro req
  induction req with
  | nil =>
    intro common acc
    simp [addJoinLoop]
  | cons pe rest ih =>
    intro common acc
    rcases hpr : probeStep pe common acc.matched with ⟨o, m2, commonRest⟩
    cases o with
    | some cached =>
      simp only [addJoinLoop, hpr]
      refine List.IsPrefix.trans ?_ (ih commonRest _)
      simp
    | none =>
      simp only [addJoinLoop, hpr]
      refine List.IsPrefix.trans ?_ (ih commonRest _)
      simp [freshAcc]

theorem addJoinLoop_localEls_get (ta : String) (req common : List PathElement)
    (acc : JAcc) (i : Nat) (hi : i < acc.localEls.length) :
    (addJoinLoop ta req common acc).localEls.get? i = acc.localEls.get? i := by
  obtain ⟨t, ht⟩ := addJoinLoop_localEls_pfx ta req common acc
  rw [← ht]
  exact List.get?_append hi

theorem take_get_eq {α : Type} : ∀ (l : List α) (n i : Nat), i < n →
    (l.take n).get? i = l.get? i := by
  intro l
  induction l with
  | nil =>
    intro n i _
    simp
  | cons x xs ih =>
    intro n i h
    cases n with
    | zero => omega
    | succ m =>
      cases i with
      | zero => simp
      | succ j => simpa using ih m j (by omega)

theorem zipWith_get_eq_some {α β γ : Type} (f : α → β → γ) :
    ∀ (as' : List α) (bs : List β) (i : Nat) (a : α) (b : β),
      as'.get? i = some a → bs.get? i = some b →
      (List.zipWith f as' bs).get? i = some (f a b) := by
  intro as'
  induction as' with
  | nil =>
    intro bs i a b ha _
    simp at ha
  | cons x xs ih =>
    intro bs i a b ha hb
    cases bs with
    | nil => simp at hb
    | cons y ys =>
      cases i with
      | zero =>
        simp only [List.get?] at ha hb
        obtain rfl := Option.some.inj ha
        obtain rfl := Option.some.inj hb
        simp [List.zipWith]
      | succ j =>
        simp only [List.get?] at ha hb
        simpa using ih ys j a b ha hb

theorem getLast_cons_isSome {α : Type} : ∀ (x : α) (l : List α),
    ((x :: l).getLast?).isSome = true := by
  intro x l
  induction l generalizing x with
  | nil => rfl
  | cons y ys ih =>
    rw [List.getLast?_cons_cons]
    exact ih y

theorem addJoinLoop_prefix (ta : String) : ∀ (common req : List PathElement) (acc : JAcc),
    acc.matched = true →
    commonLen common req = common.length →
    common.length ≤ req.length →
    (∀ c ∈ common, c.derived.isSome = true) →
    addJoinLoop ta req common acc
      = addJoinLoop ta (req.drop common.length) []
          { bag := acc.bag, ctr := acc.ctr,
            lastFk := (match common.getLast? with
              | some c2 => c2.derived.map Assoc.hopKey
              | none => acc.lastFk),
            f := acc.f + common.length, matched := true,
            localEls := acc.localEls
              ++ List.zipWith reuseEl (req.take common.length) common } := by
  intro common
  induction common with
  | nil =>
    intro req acc hm _ _ _
    cases acc with
    | mk bag ctr lastFk f matched localEls =>
      simp only at hm
      subst hm
      simp
  | cons c cs ih =>
    intro req acc hm hcl hle hds
    cases req with
    | nil => simp [List.length_cons] at hle
    | cons pe rest =>
      have hid : c.base.core.aid = pe.base.core.aid := by
        by_contra hne
        simp only [commonLen, if_neg hne, List.length_cons] at hcl
        omega
      have hcl2 : commonLen cs rest = cs.length := by
        simp only [commonLen, if_pos hid, List.length_cons] at hcl
        omega
      have hle2 : cs.length ≤ rest.length := by
        simp only [List.length_cons] at hle
        omega
      obtain ⟨d, hd⟩ : ∃ d, c.derived = some d := by
        have h1 := hds c (List.mem_cons_self c cs)
        cases hcc : c.derived with
        | none => rw [hcc] at h1; simp at h1
        | some d => exact ⟨d, rfl⟩
      have hds2 : ∀ c2 ∈ cs, c2.derived.isSome = true :=
        fun c2 hc2 => hds c2 (List.mem_cons_of_mem c hc2)
      have hstep : addJoinLoop ta (pe :: rest) (c :: cs) acc
          = addJoinLoop ta rest cs
            { acc with lastFk := some d.hopKey, f := acc.f + 1, matched := true,
                       localEls := acc.localEls ++ [reuseEl pe c] } := by
        simp only [addJoinLoop, probeStep, hm, if_true, hid, hd, reuseEl]
      rw [hstep]
      have hrec := ih rest
        { acc with lastFk := some d.hopKey, f := acc.f + 1, matched := true,
                   localEls := acc.localEls ++ [reuseEl pe c] } rfl hcl2 hle2 hds2
      rw [hrec]
      simp only [List.length_cons, List.drop_succ_cons, List.take_succ_cons,
        List.zipWith_cons_cons]
      congr 1
      simp only [JAcc.mk.injEq]
      refine ⟨trivial, trivial, ?_, by omega, trivial, ?_⟩
      · cases cs with
        | nil => simp [hd]
        | cons c2 cs2 =>
          rw [List.getLast?_cons_cons]
          cases hgl : (c2 :: cs2).getLast? with
          | none =>
            have hs := getLast_cons_isSome c2 cs2
            rw [hgl] at hs
            simp at hs
          | some c3 => rfl
      · simp

/-- **C1.** Prefix reuse: when a request shares its first `k` elements
(by schema association identity) with the deepest cached common path
and the cache is fully resolved, `addJoin` returns for those `k`
positions exactly the requested elements carrying the cached derived
associations verbatim, and the element loop reduces to resolving only
the suffix from a state whose alias bag and allocation counter are the
caller's untouched originals: the prefix clones no association and
allocates no alias. -/
theorem addJoin_prefix_reuse (s : DmlSt) (req : List PathElement) (fetch : Bool)
    (hds : cacheDerivedSet s = true) :
    (∀ i, i < (DeepestCommonPath s.cachedAssociation req).length →
      ∃ c pe, (DeepestCommonPath s.cachedAssociation req).get? i = some c
        ∧ req.get? i = some pe
        ∧ (s.addJoin none req fetch).2.1.get? i = some (reuseEl pe c))
    ∧ addJoinLoop s.tableAlias req (DeepestCommonPath s.cachedAssociation req)
        { bag := s.joinBag, ctr := s.ctr, lastFk := none, f := 0, matched := true,
          localEls := [] }
      = addJoinLoop s.tableAlias
          (req.drop (DeepestCommonPath s.cachedAssociation req).length) []
          { bag := s.joinBag, ctr := s.ctr,
            lastFk := (match (DeepestCommonPath s.cachedAssociation req).getLast? with
              | some c2 => c2.derived.map Assoc.hopKey
              | none => none),
            f := (DeepestCommonPath s.cachedAssociation req).length, matched := true,
            localEls := List.zipWith reuseEl
              (req.take (DeepestCommonPath s.cachedAssociation req).length)
              (DeepestCommonPath s.cachedAssociation req) } := by
  obtain ⟨d1, d2, d3, d4⟩ := DCP_fold req s.cachedAssociation []
    (by cases req <;> simp [commonLen])
  have hc1 : commonLen (DeepestCommonPath s.cachedAssociation req) req
      = (DeepestCommonPath s.cachedAssociation req).length := by
    unfold DeepestCommonPath
    exact d1
  have hlen : (DeepestCommonPath s.cachedAssociation req).length ≤ req.length := by
    have h2 := commonLen_le_right (DeepestCommonPath s.cachedAssociation req) req
    omega
  have hdsc : ∀ c ∈ DeepestCommonPath s.cachedAssociation req, c.derived.isSome = true := by
    intro c hc
    obtain ⟨e, he, hce⟩ := DCP_mem s.cachedAssociation req c hc
    simp only [cacheDerivedSet, List.all_eq_true] at hds
    exact hds e he c hce
  have hdec := addJoinLoop_prefix s.tableAlias (DeepestCommonPath s.cachedAssociation req)
    req { bag := s.joinBag, ctr := s.ctr, lastFk := none, f := 0, matched := true,
          localEls := [] } rfl hc1 hlen hdsc
  constructor
  · intro i hi
    refine ⟨(DeepestCommonPath s.cachedAssociation req).get ⟨i, hi⟩,
      req.get ⟨i, Nat.lt_of_lt_of_le hi hlen⟩, List.get?_eq_get hi,
      List.get?_eq_get (Nat.lt_of_lt_of_le hi hlen), ?_⟩
    show (addJoinLoop s.tableAlias req (DeepestCommonPath s.cachedAssociation req)
        { bag := s.joinBag, ctr := s.ctr, lastFk := none, f := 0, matched := true,
          localEls := [] }).localEls.get? i = _
    rw [hdec]
    refine Eq.trans (addJoinLoop_localEls_get s.tableAlias _ _ _ i ?_) ?_
    · simp only [List.length_append, List.length_nil, List.length_zipWith,
        List.length_take]
      omega
    · show (List.zipWith reuseEl
          (req.take (DeepestCommonPath s.cachedAssociation req).length)
          (DeepestCommonPath s.cachedAssociation req)).get? i
          = some (reuseEl (req.get ⟨i, Nat.lt_of_lt_of_le hi hlen⟩)
              ((DeepestCommonPath s.cachedAssociation req).get ⟨i, hi⟩))
      exact zipWith_get_eq_some reuseEl _ _ i _ _
        (by rw [take_get_eq _ _ _ hi]
            exact List.get?_eq_get (Nat.lt_of_lt_of_le hi hlen))
        (List.get?_eq_get hi)
  · rw [hdec]
    simp

/-- C1 witness: in a session that already resolved the one-step path
through association A, requesting the two-step path A then B reuses the
cached first element verbatim. -/
theorem addJoin_prefix_reuse_witness :
    cacheDerivedSet wS1 = true
    ∧ 0 < (DeepestCommonPath wS1.cachedAssociation [wPE wAssocA, wPE wAssocB]).length
    ∧ (wS1.addJoin none [wPE wAssocA, wPE wAssocB] false).2.1.get? 0
        = ((DeepestCommonPath wS1.cachedAssociation [wPE wAssocA, wPE wAssocB]).get? 0).map
            (reuseEl (wPE wAssocA)) := by
  refine ⟨by decide, by decide, ?_⟩
  obtain ⟨c, pe, hc, hpe, hr⟩ :=
    (addJoin_prefix_reuse wS1 [wPE wAssocA, wPE wAssocB] false (by decide)).1 0 (by decide)
  have hpe2 : pe = wPE wAssocA := by
    simp only [List.get?] at hpe
    exact (Option.some.inj hpe).symm
  rw [hr, hc, hpe2]
  simp

/-! ### C7: slot routing in joinTo -/

theorem replaceRaw_st_frame : ∀ t : Criteria, ∀ s : DmlSt,
    (s.replaceRaw t).1.criteria = s.criteria ∧ (s.replaceRaw t).1.joinBag = s.joinBag :=
  @Criteria.rec
    (fun t => ∀ s : DmlSt, (s.replaceRaw t).1.criteria = s.criteria
      ∧ (s.replaceRaw t).1.joinBag = s.joinBag)
    (fun ms => ∀ s : DmlSt, (s.replaceRawL ms).1.criteria = s.criteria
      ∧ (s.replaceRawL ms).1.joinBag = s.joinBag)
    (fun _ op al v ms ih s => by
      by_cases hop : op = TOKEN_RAW
      · simp [DmlSt.replaceRaw, hop]
      · by_cases hsub : op = TOKEN_SUBQUERY
        · cases v <;> simp [DmlSt.replaceRaw, hop, hsub, TOKEN_RAW, TOKEN_SUBQUERY]
        · simp only [DmlSt.replaceRaw, hop, hsub, if_false]
          exact ih s)
    (fun s => ⟨rfl, rfl⟩)
    (fun c cs ihc ihcs s => by
      have e1 : s.replaceRawL (CList.cons c cs)
          = (((s.replaceRaw c).1.replaceRawL cs).1,
             CList.cons (s.replaceRaw c).2 ((s.replaceRaw c).1.replaceRawL cs).2) := by
        simp [DmlSt.replaceRawL]
      rw [e1]
      obtain ⟨h1, h2⟩ := ihc s
      obtain ⟨h3, h4⟩ := ihcs (s.replaceRaw c).1
      exact ⟨h3.trans h1, h4.trans h2⟩)

theorem replaceRawL_len : ∀ ms : CList, ∀ s : DmlSt,
    CList.length (s.replaceRawL ms).2 = CList.length ms :=
  @CList.rec (fun _ => True)
    (fun ms => ∀ s : DmlSt, CList.length (s.replaceRawL ms).2 = CList.length ms)
    (fun _ _ _ _ _ _ => trivial)
    (fun _ => rfl)
    (fun c cs _ ihcs s => by
      simp [DmlSt.replaceRawL, CList.length, ihcs (s.replaceRaw c).1])

theorem setTableAliasL_len : ∀ ms : CList, ∀ a : String,
    CList.length (CList.setTableAliasL a ms) = CList.length ms :=
  @CList.rec (fun _ => True)
    (fun ms => ∀ a : String, CList.length (CList.setTableAliasL a ms) = CList.length ms)
    (fun _ _ _ _ _ _ => trivial)
    (fun _ => rfl)
    (fun c cs _ ihcs a => by simp [CList.setTableAliasL, CList.length, ihcs a])

theorem cloneFromL_len : ∀ ms : CList, ∀ ctr : Nat,
    CList.length (CList.cloneFromL ctr ms).1 = CList.length ms :=
  @CList.rec (fun _ => True)
    (fun ms => ∀ ctr : Nat, CList.length (CList.cloneFromL ctr ms).1 = CList.length ms)
    (fun _ _ _ _ _ _ => trivial)
    (fun _ => rfl)
    (fun c cs _ ihcs ctr => by
      simp [CList.cloneFromL, CList.length, ihcs (Criteria.cloneFrom ctr c).2])

theorem replaceRaw_and_node (s : DmlSt) (i : Nat) (al : String) (v : CVal) (ms : CList) :
    s.replaceRaw (Criteria.node i TOKEN_AND al v ms)
      = ((s.replaceRawL ms).1, Criteria.node i TOKEN_AND al v (s.replaceRawL ms).2) := by
  have h1 : TOKEN_AND ≠ TOKEN_RAW := by decide
  have h2 : TOKEN_AND ≠ TOKEN_SUBQUERY := by decide
  simp [DmlSt.replaceRaw, h1, h2]

theorem cloneFrom_node (ctr i : Nat) (op al : String) (v : CVal) (ms : CList) :
    (Criteria.node i op al v ms).cloneFrom ctr
      = (Criteria.node ctr op al v (CList.cloneFromL (ctr + 1) ms).1,
         (CList.cloneFromL (ctr + 1) ms).2) := by
  simp [Criteria.cloneFrom]

theorem setTableAlias_empty_node (a : String) (i : Nat) (op : String) (v : CVal)
    (ms : CList) :
    (Criteria.node i op "" v ms).setTableAlias a
      = Criteria.node i op a v (CList.setTableAliasL a ms) := by
  simp [Criteria.setTableAlias]

theorem applyOn_criteria_frame (s : DmlSt) (chain : List PathElement) (c : Criteria) :
    (s.applyOn chain c).1.criteria = s.criteria := by
  match hpe : chain.getLast? with
  | none => simp [DmlSt.applyOn, hpe]
  | some pe =>
    match hfk : pe.derived with
    | none => simp [DmlSt.applyOn, hpe, hfk]
    | some fk =>
      simp only [DmlSt.applyOn, hpe, hfk]
      exact (replaceRaw_st_frame _ _).1

theorem applyIncludeGo_criteria_frame (s : DmlSt) (chain : List PathElement)
    (tokens : List Criteria) :
    (s.applyIncludeGo chain tokens).1.criteria = s.criteria := by
  match hpe : chain.getLast? with
  | none => simp [DmlSt.applyIncludeGo, hpe]
  | some pe =>
    match hfk : pe.derived with
    | none => simp [DmlSt.applyIncludeGo, hpe, hfk]
    | some fk => simp [DmlSt.applyIncludeGo, hpe, hfk]

theorem get_set_eq_of_lt {α : Type} : ∀ (l : List α) (i : Nat) (a : α), i < l.length →
    (l.set i a).get? i = some a := by
  intro l
  induction l with
  | nil =>
    intro i a h
    simp at h
  | cons x xs ih =>
    intro i a h
    cases i with
    | zero => rfl
    | succ j => simpa using ih j a (by simpa using h)

theorem get_lt_of_get_some {α : Type} (l : List α) (i : Nat) (a : α)
    (h : l.get? i = some a) : i < l.length := by
  by_contra hge
  rw [List.get?_eq_none.mpr (by omega)] at h
  exact Option.noConfusion h

theorem setColumnsAt_length (l : List PathElement) (i : Nat) (cols : List Criteria) :
    (setColumnsAt l i cols).length = l.length := by
  unfold setColumnsAt
  cases h : l.get? i <;> simp [List.length_set]

theorem setColumnsAt_get_ne (l : List PathElement) (i p : Nat) (cols : List Criteria)
    (hne : i ≠ p) : (setColumnsAt l i cols).get? p = l.get? p := by
  unfold setColumnsAt
  cases h : l.get? i with
  | none => rfl
  | some pe => exact List.get?_set_ne _ _ hne

theorem setColumnsAt_get_eq (l : List PathElement) (i : Nat) (cols : List Criteria)
    (pe : PathElement) (h : l.get? i = some pe) :
    (setColumnsAt l i cols).get? i = some { pe with columns := some cols } := by
  unfold setColumnsAt
  rw [h]
  exact get_set_eq_of_lt _ _ _ (get_lt_of_get_some _ _ _ h)

theorem setColumnsAt_derived (l : List PathElement) (i : Nat) (cols : List Criteria)
    (hder : ∀ pe ∈ l, pe.derived.isSome = true) :
    ∀ pe ∈ setColumnsAt l i cols, pe.derived.isSome = true := by
  unfold setColumnsAt
  cases h : l.get? i with
  | none => exact hder
  | some pe0 =>
    intro pe hpe
    rcases List.mem_or_eq_of_mem_set hpe with hmem | rfl
    · exact hder pe hmem
    · exact hder pe0 (List.get?_mem h)

theorem dropLast_take {α : Type} (l : List α) (idx : Nat) (h2 : idx ≤ l.length) :
    (l.take idx).dropLast = l.take (idx - 1) := by
  rw [List.dropLast_eq_take, List.length_take, Nat.min_eq_left h2, List.take_take]
  congr 1
  omega

theorem take_getLast {α : Type} (l : List α) (idx : Nat) (h1 : 1 ≤ idx)
    (h2 : idx ≤ l.length) : (l.take idx).getLast? = l.get? (idx - 1) := by
  rw [List.getLast?_eq_get?, List.length_take, Nat.min_eq_left h2]
  exact take_get_eq l idx (idx - 1) (by omega)

theorem applyOn_and_write (st : DmlSt) (chain : List PathElement) (i : Nat) (v : CVal)
    (cs : CList) (pe0 : PathElement) (fk : Assoc)
    (hgl : chain.getLast? = some pe0) (hfk : pe0.derived = some fk) :
    ∃ cr, (st.applyOn chain (Criteria.node i TOKEN_AND "" v cs)).2
        = chain.dropLast ++ [{ pe0 with criteria := some cr }]
      ∧ cr.op = TOKEN_AND
      ∧ CList.length cr.members = CList.length cs := by
  simp only [DmlSt.applyOn, hgl, hfk]
  rw [cloneFrom_node]
  cases hm : fk.m2m with
  | none =>
    rw [setTableAlias_empty_node, replaceRaw_and_node]
    refine ⟨_, rfl, rfl, ?_⟩
    simp only [Criteria.members]
    rw [replaceRawL_len, setTableAliasL_len, cloneFromL_len]
  | some p2 =>
    rw [setTableAlias_empty_node, replaceRaw_and_node]
    refine ⟨_, rfl, rfl, ?_⟩
    simp only [Criteria.members]
    rw [replaceRawL_len, setTableAliasL_len, cloneFromL_len]

theorem slotStep_shape (s : DmlSt) (els : List PathElement) (pc : PathCriteria) (idx : Nat)
    (h1 : 1 ≤ idx) (h2 : idx ≤ els.length)
    (hder : ∀ pe ∈ els, pe.derived.isSome = true) :
    (slotStep s els pc idx none).2.2 = none
    ∧ (slotStep s els pc idx none).1.criteria = s.criteria
    ∧ (slotStep s els pc idx none).2.1.length = els.length
    ∧ (∀ pe ∈ (slotStep s els pc idx none).2.1, pe.derived.isSome = true)
    ∧ (∀ p, p + 1 < idx → (slotStep s els pc idx none).2.1.get? p = els.get? p)
    ∧ (pc.criterias.isEmpty = false →
        ∃ pe2 cr, (slotStep s els pc idx none).2.1.get? (idx - 1) = some pe2
          ∧ pe2.criteria = some cr ∧ cr.op = TOKEN_AND
          ∧ CList.length cr.members = pc.criterias.length) := by
  have hidx0 : ¬ idx = 0 := by omega
  cases hemp : pc.criterias.isEmpty with
  | true =>
    have hss : slotStep s els pc idx none = (s, els, none) := by
      simp [slotStep, hemp]
    rw [hss]
    refine ⟨rfl, rfl, rfl, hder, fun p _ => rfl, ?_⟩
    intro hne
    exact Bool.noConfusion hne
  | false =>
    have hlt : idx - 1 < els.length := by omega
    have hget : els.get? (idx - 1) = some (els.get ⟨idx - 1, hlt⟩) := List.get?_eq_get hlt
    have hd := hder (els.get ⟨idx - 1, hlt⟩) (List.get?_mem hget)
    obtain ⟨fk, hfk⟩ : ∃ fk, (els.get ⟨idx - 1, hlt⟩).derived = some fk := by
      cases hx : (els.get ⟨idx - 1, hlt⟩).derived with
      | none => rw [hx] at hd; simp at hd
      | some fk => exact ⟨fk, rfl⟩
    have hgl : (els.take idx).getLast? = some (els.get ⟨idx - 1, hlt⟩) := by
      rw [take_getLast els idx h1 h2]
      exact hget
    obtain ⟨cr, hwr, hop, hlen⟩ := applyOn_and_write { s with ctr := s.ctr + 1 }
      (els.take idx) s.ctr CVal.vnone (CList.ofList pc.criterias) _ fk hgl hfk
    have hss21 : (slotStep s els pc idx none).2.1
        = (DmlSt.applyOn { s with ctr := s.ctr + 1 } (els.take idx)
            (Criteria.node s.ctr TOKEN_AND "" CVal.vnone (CList.ofList pc.criterias))).2
          ++ els.drop idx := by
      simp [slotStep, hemp, hidx0, mkAnd]
    have hss1 : (slotStep s els pc idx none).1
        = (DmlSt.applyOn { s with ctr := s.ctr + 1 } (els.take idx)
            (Criteria.node s.ctr TOKEN_AND "" CVal.vnone (CList.ofList pc.criterias))).1 := by
      simp [slotStep, hemp, hidx0, mkAnd]
    have hss22 : (slotStep s els pc idx none).2.2 = none := by
      simp [slotStep, hemp, hidx0]
    have hl1 : (els.take (idx - 1)).length = idx - 1 := by
      rw [List.length_take]
      omega
    have hels : (slotStep s els pc idx none).2.1
        = (els.take (idx - 1) ++ [{ els.get ⟨idx - 1, hlt⟩ with criteria := some cr }])
          ++ els.drop idx := by
      rw [hss21, hwr, dropLast_take els idx h2]
    refine ⟨hss22, ?_, ?_, ?_, ?_, ?_⟩
    · rw [hss1]
      exact applyOn_criteria_frame _ _ _
    · rw [hels]
      simp only [List.length_append, List.length_singleton, hl1, List.length_drop]
      omega
    · rw [hels]
      intro pe hpe
      rcases List.mem_append.mp hpe with hpe1 | hpe2
      · rcases List.mem_append.mp hpe1 with hpe3 | hpe4
        · exact hder pe (List.take_subset _ _ hpe3)
        · rw [List.mem_singleton] at hpe4
          subst hpe4
          simpa using hd
      · exact hder pe (List.drop_subset _ _ hpe2)
    · intro p hp
      rw [hels]
      have hlen1 : p < (els.take (idx - 1)
          ++ [{ els.get ⟨idx - 1, hlt⟩ with criteria := some cr }]).length := by
        simp only [List.length_append, List.length_singleton, hl1]
        omega
      rw [List.get?_append hlen1]
      have hlen2 : p < (els.take (idx - 1)).length := by
        rw [hl1]
        omega
      rw [List.get?_append hlen2]
      exact take_get_eq els (idx - 1) p (by omega)
    · intro _
      refine ⟨{ els.get ⟨idx - 1, hlt⟩ with criteria := some cr }, cr, ?_, rfl, hop, ?_⟩
      · rw [hels]
        have hlen1 : idx - 1 < (els.take (idx - 1)
            ++ [{ els.get ⟨idx - 1, hlt⟩ with criteria := some cr }]).length := by
          simp only [List.length_append, List.length_singleton, hl1]
          omega
        rw [List.get?_append hlen1]
        rw [List.get?_append_right (by omega : (els.take (idx - 1)).length ≤ idx - 1)]
        simp [hl1]
      · rw [hlen]
        exact CList.length_ofList _

theorem slotStep2_shape (st : DmlSt × List PathElement × Option (List Criteria))
    (pc : PathCriteria) (idx : Nat) (h1 : 1 ≤ idx) :
    (slotStep2 st pc idx).1.criteria = st.1.criteria
    ∧ (slotStep2 st pc idx).2.length = st.2.1.length
    ∧ ((∀ pe ∈ st.2.1, pe.derived.isSome = true) →
        ∀ pe ∈ (slotStep2 st pc idx).2, pe.derived.isSome = true)
    ∧ (∀ p, ¬ p = idx - 1 → (slotStep2 st pc idx).2.get? p = st.2.1.get? p)
    ∧ (∀ pe2, st.2.1.get? (idx - 1) = some pe2 →
        ∃ pe3, (slotStep2 st pc idx).2.get? (idx - 1) = some pe3
          ∧ pe3.criteria = pe2.criteria ∧ pe3.derived = pe2.derived) := by
  have hidx0 : ¬ idx = 0 := by omega
  cases hcols : pc.columns with
  | none =>
    have hss : slotStep2 st pc idx = (st.1, st.2.1) := by
      simp [slotStep2, hcols]
    rw [hss]
    exact ⟨rfl, rfl, fun h => h, fun p _ => rfl, fun pe2 h => ⟨pe2, h, rfl, rfl⟩⟩
  | some cols =>
    have hss : slotStep2 st pc idx
        = ((DmlSt.applyIncludeGo st.1 (st.2.1.take idx) cols).1,
           setColumnsAt st.2.1 (idx - 1)
             (DmlSt.applyIncludeGo st.1 (st.2.1.take idx) cols).2) := by
      simp [slotStep2, hcols, hidx0]
    rw [hss]
    refine ⟨applyIncludeGo_criteria_frame _ _ _, setColumnsAt_length _ _ _,
      fun h => setColumnsAt_derived _ _ _ h,
      fun p hp => setColumnsAt_get_ne _ _ _ _ (fun he => hp he.symm), ?_⟩
    intro pe2 h
    exact ⟨{ pe2 with
              columns := some (DmlSt.applyIncludeGo st.1 (st.2.1.take idx) cols).2 },
      setColumnsAt_get_eq _ _ _ _ h, rfl, rfl⟩

theorem addJoinLoop_derived (ta : String) : ∀ (req common : List PathElement) (acc : JAcc),
    (∀ pe ∈ acc.localEls, pe.derived.isSome = true) →
    ∀ pe ∈ (addJoinLoop ta req common acc).localEls, pe.derived.isSome = true := by
  intro req
  induction req with
  | nil =>
    intro common acc h
    simpa [addJoinLoop] using h
  | cons pe rest ih =>
    intro common acc h
    rcases hpr : probeStep pe common acc.matched with ⟨o, m2, commonRest⟩
    cases o with
    | some cached =>
      simp only [addJoinLoop, hpr]
      refine ih commonRest _ ?_
      intro x hx
      rcases List.mem_append.mp hx with hx1 | hx2
      · exact h x hx1
      · rw [List.mem_singleton] at hx2
        subst hx2
        rfl
    | none =>
      simp only [addJoinLoop, hpr]
      refine ih commonRest _ ?_
      intro x hx
      simp only [freshAcc] at hx
      rcases List.mem_append.mp hx with hx1 | hx2
      · exact h x hx1
      · rw [List.mem_singleton] at hx2
        subst hx2
        rfl

theorem applySlots_main : ∀ (slm : List (Option PathCriteria)) (s : DmlSt)
    (els : List PathElement) (idx : Nat),
    1 ≤ idx → idx + slm.length = els.length + 1 →
    (∀ pe ∈ els, pe.derived.isSome = true) →
    (DmlSt.applySlots s els slm idx none).1.criteria = s.criteria
    ∧ (DmlSt.applySlots s els slm idx none).2.length = els.length
    ∧ (∀ p, p + 1 < idx → (DmlSt.applySlots s els slm idx none).2.get? p = els.get? p)
    ∧ (∀ j pc, slm.get? j = some (some pc) → pc.criterias.isEmpty = false →
        ∃ pe2 cr, (DmlSt.applySlots s els slm idx none).2.get? (idx + j - 1) = some pe2
          ∧ pe2.criteria = some cr ∧ cr.op = TOKEN_AND
          ∧ CList.length cr.members = pc.criterias.length) := by
  intro slm
  induction slm with
  | nil =>
    intro s els idx h1 hlen hder
    refine ⟨rfl, rfl, fun p _ => rfl, ?_⟩
    intro j pc hj _
    simp at hj
  | cons slot rest ih =>
    intro s els idx h1 hlen hder
    cases slot with
    | none =>
      have hstep : DmlSt.applySlots s els (none :: rest) idx none
          = DmlSt.applySlots s els rest (idx + 1) none := rfl
      rw [hstep]
      obtain ⟨c1, c2, c3, c4⟩ := ih s els (idx + 1) (by omega)
        (by simp only [List.length_cons] at hlen; omega) hder
      refine ⟨c1, c2, fun p hp => c3 p (by omega), ?_⟩
      intro j pc hj hne
      cases j with
      | zero => simp at hj
      | succ j2 =>
        obtain ⟨pe2, cr, hg, hc, ho, hl⟩ := c4 j2 pc (by simpa using hj) hne
        refine ⟨pe2, cr, ?_, hc, ho, hl⟩
        have harith : idx + 1 + j2 - 1 = idx + (j2 + 1) - 1 := by omega
        rw [← harith]
        exact hg
    | some pc0 =>
      have hstep : DmlSt.applySlots s els (some pc0 :: rest) idx none
          = DmlSt.applySlots (slotStep2 (slotStep s els pc0 idx none) pc0 idx).1
              (slotStep2 (slotStep s els pc0 idx none) pc0 idx).2 rest (idx + 1)
              (slotStep s els pc0 idx none).2.2 := rfl
      have h2 : idx ≤ els.length := by
        simp only [List.length_cons] at hlen
        omega
      obtain ⟨sf, scrit, slen, sder, sframe, swrite⟩ := slotStep_shape s els pc0 idx h1 h2 hder
      obtain ⟨tcrit, tlen, tder, tframe, tkeep⟩ :=
        slotStep2_shape (slotStep s els pc0 idx none) pc0 idx h1
      rw [hstep, sf]
      have hlen2 : (slotStep2 (slotStep s els pc0 idx none) pc0 idx).2.length = els.length :=
        tlen.trans slen
      obtain ⟨c1, c2, c3, c4⟩ := ih (slotStep2 (slotStep s els pc0 idx none) pc0 idx).1
        (slotStep2 (slotStep s els pc0 idx none) pc0 idx).2 (idx + 1) (by omega)
        (by rw [hlen2]; simp only [List.length_cons] at hlen; omega) (tder sder)
      refine ⟨c1.trans (tcrit.trans scrit), c2.trans hlen2, ?_, ?_⟩
      · intro p hp
        exact (c3 p (by omega)).trans ((tframe p (by omega)).trans (sframe p hp))
      · intro j pc hj hne
        cases j with
        | zero =>
          have hpc : pc0 = pc := by simpa using hj
          subst hpc
          obtain ⟨pe2, cr, hg, hc, ho, hl⟩ := swrite hne
          obtain ⟨pe3, hg3, hc3, _⟩ := tkeep pe2 hg
          refine ⟨pe3, cr, ?_, hc3.trans hc, ho, hl⟩
          have harith : idx + 0 - 1 = idx - 1 := by omega
          rw [harith]
          exact (c3 (idx - 1) (by omega)).trans hg3
        | succ j2 =>
          obtain ⟨pe2, cr, hg, hc, ho, hl⟩ := c4 j2 pc (by simpa using hj) hne
          refine ⟨pe2, cr, ?_, hc, ho, hl⟩
          have harith : idx + 1 + j2 - 1 = idx + (j2 + 1) - 1 := by omega
          rw [← harith]
          exact hg

/-- **C7.** Slot routing in `joinTo`: the caller's top-level filter is
never touched by processing the composed path criteria (slot 0, the
only slot the source would merge toward the top level, is provably
always empty), and the criteria of every nonempty slot `j > 0` are
attached through `applyOn` as the ON restriction of the join step
`j`: the final element at position `j - 1` carries a criteria node
that is the boolean AND of exactly that slot's conditions. -/
theorem joinTo_slot_routing (s : DmlSt) (path : List PathElement) (fetch : Bool) :
    (s.joinToParts path fetch).1.criteria = s.criteria
    ∧ (s.joinToParts path fetch).2.2.get? 0 = some none
    ∧ (∀ j pc, (s.joinToParts path fetch).2.2.get? j = some (some pc) → 0 < j →
        pc.criterias.isEmpty = false →
        ∃ pe2 cr, (s.joinToParts path fetch).2.1.get? (j - 1) = some pe2
          ∧ pe2.criteria = some cr ∧ cr.op = TOKEN_AND
          ∧ CList.length cr.members = pc.criterias.length) := by
  have hder : ∀ pe ∈ (s.addJoin none path fetch).2.1, pe.derived.isSome = true := by
    have h0 := addJoinLoop_derived s.tableAlias path
      (DeepestCommonPath s.cachedAssociation path)
      { bag := s.joinBag, ctr := s.ctr, lastFk := none, f := 0, matched := true,
        localEls := [] } (by intro x hx; simp at hx)
    exact h0
  have hsl : ((s.addJoin none path fetch).1.buildPathCriterias
      (s.addJoin none path fetch).2.1).2.length
      = (s.addJoin none path fetch).2.1.length + 1 := by
    unfold DmlSt.buildPathCriterias
    simp only [bpc2_slots_length, bpc1_length, List.length_replicate]
  have hs0 : ((s.addJoin none path fetch).1.buildPathCriterias
      (s.addJoin none path fetch).2.1).2.get? 0 = some none := by
    unfold DmlSt.buildPathCriterias
    rw [bpc2_get_le _ _ _ _ _ _ 0 (by omega), bpc1_get_le _ _ _ 0 (by omega),
      List.replicate_succ]
    rfl
  obtain ⟨rest, hrest, hrlen⟩ : ∃ rest, ((s.addJoin none path fetch).1.buildPathCriterias
      (s.addJoin none path fetch).2.1).2 = none :: rest
      ∧ rest.length = (s.addJoin none path fetch).2.1.length := by
    cases hsl2 : ((s.addJoin none path fetch).1.buildPathCriterias
        (s.addJoin none path fetch).2.1).2 with
    | nil =>
      rw [hsl2] at hsl
      simp at hsl
    | cons a r =>
      rw [hsl2] at hs0 hsl
      simp only [List.get?] at hs0
      obtain rfl := Option.some.inj hs0
      refine ⟨r, rfl, ?_⟩
      simp only [List.length_cons] at hsl
      omega
  obtain ⟨c1, c2, c3, c4⟩ := applySlots_main rest
    ((s.addJoin none path fetch).1.buildPathCriterias (s.addJoin none path fetch).2.1).1
    (s.addJoin none path fetch).2.1 1 (by omega) (by rw [hrlen]; omega) hder
  have estep : ∀ (B : DmlSt) (els : List PathElement),
      DmlSt.applySlots B els (none :: rest) 0 none
        = DmlSt.applySlots B els rest 1 none := fun B els => rfl
  have e1 : (s.joinToParts path fetch).2.2
      = ((s.addJoin none path fetch).1.buildPathCriterias
          (s.addJoin none path fetch).2.1).2 := rfl
  have e2 : (s.joinToParts path fetch).2.1
      = (((s.addJoin none path fetch).1.buildPathCriterias
            (s.addJoin none path fetch).2.1).1.applySlots (s.addJoin none path fetch).2.1
          ((s.addJoin none path fetch).1.buildPathCriterias
            (s.addJoin none path fetch).2.1).2 0 none).2 := rfl
  have e3 : (s.joinToParts path fetch).1.criteria
      = (((s.addJoin none path fetch).1.buildPathCriterias
            (s.addJoin none path fetch).2.1).1.applySlots (s.addJoin none path fetch).2.1
          ((s.addJoin none path fetch).1.buildPathCriterias
            (s.addJoin none path fetch).2.1).2 0 none).1.criteria := rfl
  refine ⟨?_, ?_, ?_⟩
  · rw [e3, hrest, estep]
    exact c1
  · rw [e1]
    exact hs0
  · intro j pc hj hjpos hne
    rw [e1, hrest] at hj
    cases j with
    | zero => omega
    | succ j2 =>
      have hj2 : rest.get? j2 = some (some pc) := by simpa using hj
      obtain ⟨pe2, cr, hg, hc, ho, hl⟩ := c4 j2 pc hj2 hne
      refine ⟨pe2, cr, ?_, hc, ho, hl⟩
      rw [e2, hrest, estep]
      have harith : j2 + 1 - 1 = 1 + j2 - 1 := by omega
      rw [harith]
      exact hg

/-- C7 witness: joining one step along `wAssocA` (whose destination
table carries a table-level criteria) keeps the top-level filter
untouched, composes that criteria into slot 1, and stores on the
joined element an AND node over exactly that slot's one condition. -/
theorem joinTo_slot_routing_witness :
    (wS0.joinToParts [wPE wAssocA] false).1.criteria = none
    ∧ (wS0.joinToParts [wPE wAssocA] false).2.2.get? 1
        = some (some { criterias := [Criteria.node 900 TOKEN_EQ "" (CVal.vint 1) CList.nil],
                       columns := none })
    ∧ ∃ pe2 cr, (wS0.joinToParts [wPE wAssocA] false).2.1.get? 0 = some pe2
        ∧ pe2.criteria = some cr ∧ cr.op = TOKEN_AND ∧ CList.length cr.members = 1 := by
  obtain ⟨h1, h2, h3⟩ := joinTo_slot_routing wS0 [wPE wAssocA] false
  refine ⟨h1, rfl, ?_⟩
  obtain ⟨pe2, cr, hg, hc, ho, hl⟩ := h3 1
    { criterias := [Criteria.node 900 TOKEN_EQ "" (CVal.vint 1) CList.nil], columns := none }
    rfl (by omega) rfl
  exact ⟨pe2, cr, hg, hc, ho, hl⟩

end GoSql
